import Mathlib

/-!
Verification development for the legacy-document-transformation extraction
pipeline (`scripts/extract/extract-controls.py`, `extract-entities.py`,
`extract-metadata.py`).

Strings are modelled as `List Char` (`Str`); file contents are `Option Str`
(`none` models a file whose `read_text` raises, i.e. an unreadable file).
Python regular expressions used by the scripts are embedded as explicit
executable matchers over `List Char`, faithful to `re` semantics (ASCII model)
for the pattern at hand, and `re.finditer` as the standard left-to-right
non-overlapping scan.
-/

namespace LegacyDocs

/-- Strings of the pipeline, modelled as character lists. -/
abbrev Str := List Char

/-- Coerce a Lean string literal to the `Str` model. -/
def str (s : String) : Str := s.data

/-! ### ASCII character classes (model of the Python `re` classes used) -/

def isAsciiUpperCh (c : Char) : Bool := 65 ≤ c.toNat && c.toNat ≤ 90

def isAsciiLowerCh (c : Char) : Bool := 97 ≤ c.toNat && c.toNat ≤ 122

def isAsciiLetterCh (c : Char) : Bool := isAsciiUpperCh c || isAsciiLowerCh c

def isAsciiDigitCh (c : Char) : Bool := 48 ≤ c.toNat && c.toNat ≤ 57

/-- Python regex word character `\w` (ASCII model): letter, digit or underscore. -/
def isWordCh (c : Char) : Bool := isAsciiLetterCh c || isAsciiDigitCh c || c = '_'

/-- Python whitespace (`str.strip` default set / regex `\s`), ASCII model. -/
def isSpaceCh (c : Char) : Bool :=
  c = ' ' || c = '\t' || c = '\n' || c = '\r' || c = '\x0b' || c = '\x0c'

/-- Model of Python `str.upper` on one ASCII character. -/
def asciiUpperCh (c : Char) : Char :=
  if isAsciiLowerCh c then Char.ofNat (c.toNat - 32) else c

/-- Model of Python `str.lower` on one ASCII character. -/
def asciiLowerCh (c : Char) : Char :=
  if isAsciiUpperCh c then Char.ofNat (c.toNat + 32) else c

/-- Model of Python `str.strip()`. -/
def trimChars (l : Str) : Str :=
  ((l.dropWhile isSpaceCh).reverse.dropWhile isSpaceCh).reverse

/-- Model of Python `content.split('\n')`. -/
def splitNl : Str → List Str
  | [] => [[]]
  | c :: rest =>
    if c = '\n' then [] :: splitNl rest
    else
      match splitNl rest with
      | [] => [[c]]
      | l :: ls => (c :: l) :: ls

/-- Association lookup by decidable equality (model of a Python `dict` read). -/
def assocFind {α β : Type} [DecidableEq α] (l : List (α × β)) (k : α) : Option β :=
  match l with
  | [] => none
  | (k', v) :: rest => if k = k' then some v else assocFind rest k

/-- Model of `defaultdict(int)` increment `d[k] += 1` (dict insertion order kept). -/
def assocAdd {α : Type} [DecidableEq α] (l : List (α × Nat)) (k : α) : List (α × Nat) :=
  match l with
  | [] => [(k, 1)]
  | (k', n) :: rest => if k = k' then (k', n + 1) :: rest else (k', n) :: assocAdd rest k

/-- Model of `defaultdict(list)` append `d[k].append(b)` (dict insertion order kept). -/
def assocAppend {α β : Type} [DecidableEq α] (l : List (α × List β)) (k : α) (b : β) :
    List (α × List β) :=
  match l with
  | [] => [(k, [b])]
  | (k', bs) :: rest =>
    if k = k' then (k', bs ++ [b]) :: rest else (k', bs) :: assocAppend rest k b

/-- Model of `defaultdict(set)` insert `d[k].add(b)` (the set as a dedup list). -/
def assocInsert {α β : Type} [DecidableEq α] [DecidableEq β]
    (l : List (α × List β)) (k : α) (b : β) : List (α × List β) :=
  match l with
  | [] => [(k, [b])]
  | (k', bs) :: rest =>
    if k = k' then (k', if b ∈ bs then bs else bs ++ [b]) :: rest
    else (k', bs) :: assocInsert rest k b

/-- The `defaultdict(list)` accumulation loop over a stream of key/value
pairs (`for k, b in stream: d[k].append(b)`). -/
def foldAppend {α β : Type} [DecidableEq α] (l : List (α × β)) : List (α × List β) :=
  l.foldl (fun acc p => assocAppend acc p.1 p.2) []

/-- The `defaultdict(set)` accumulation loop over a stream of key/value
pairs (`for k, b in stream: d[k].add(b)`). -/
def foldInsert {α β : Type} [DecidableEq α] [DecidableEq β] (l : List (α × β)) :
    List (α × List β) :=
  l.foldl (fun acc p => assocInsert acc p.1 p.2) []

/-- Key-ordered comparison of key/value pairs, used to model Python
`sorted(d.items())` (keys of a dict are distinct, so the key decides). -/
def pairKeyLe {β : Type} (p q : Str × β) : Prop := p.1 ≤ q.1

instance {β : Type} : DecidableRel (@pairKeyLe β) :=
  fun p q => inferInstanceAs (Decidable (p.1 ≤ q.1))

instance {β : Type} : IsTotal (Str × β) pairKeyLe :=
  ⟨fun a b => le_total a.1 b.1⟩

instance {β : Type} : IsTrans (Str × β) pairKeyLe :=
  ⟨fun _ _ _ h1 h2 => le_trans h1 h2⟩

/-- Model of Python `sorted` on a list of strings. -/
def sortStrs (l : List Str) : List Str := List.insertionSort (· ≤ ·) l

/-- Model of Python `dict(sorted(d.items()))`. -/
def sortPairs {β : Type} (l : List (Str × β)) : List (Str × β) :=
  List.insertionSort pairKeyLe l

/-! ## Control Reference Extractor (`extract-controls.py`)

`CONTROL_PATTERN = \b([A-Z]{2})-(\d{1,2})(?:\((\d+)\))?(?:\.([a-z]))?`
compiled with `re.IGNORECASE`.
-/

/-- The four capture groups of one `CONTROL_PATTERN` match. -/
structure CtrlMatch where
  fam1 : Char
  fam2 : Char
  number : Str
  enh : Option Str
  part : Option Char
deriving DecidableEq

/-- Number of characters consumed by a `CONTROL_PATTERN` match. -/
def ctrlMatchLen (m : CtrlMatch) : Nat :=
  3 + m.number.length
    + (match m.enh with | some e => e.length + 2 | none => 0)
    + (match m.part with | some _ => 2 | none => 0)

/-- One attempt of `CONTROL_PATTERN` anchored at the head of `s`.
`prevWord` records whether the character before `s` is a word character
(deciding the leading `\b`; the first matched character is a letter, so the
boundary holds exactly when the previous character is not a word character).
`[A-Z]` / `[a-z]` under `re.IGNORECASE` match any ASCII letter; `\d{1,2}` is
greedy and, since everything after it is optional, never backtracks; the
optional group `\((\d+)\)` takes the maximal digit run and is skipped when the
closing parenthesis does not follow it. -/
def matchControlAt (prevWord : Bool) (s : Str) : Option CtrlMatch :=
  match s with
  | c1 :: c2 :: '-' :: d1 :: rest =>
    if prevWord || !(isAsciiLetterCh c1 && isAsciiLetterCh c2 && isAsciiDigitCh d1) then
      none
    else
      let numRest : Str × Str :=
        match rest with
        | d2 :: r2 => if isAsciiDigitCh d2 then ([d1, d2], r2) else ([d1], rest)
        | [] => ([d1], [])
      let enhRest : Option Str × Str :=
        match numRest.2 with
        | '(' :: r3 =>
          match r3.span isAsciiDigitCh with
          | (ds, ')' :: r4) => if ds.isEmpty then (none, numRest.2) else (some ds, r4)
          | _ => (none, numRest.2)
        | _ => (none, numRest.2)
      let part : Option Char :=
        match enhRest.2 with
        | '.' :: p :: _ => if isAsciiLetterCh p then some p else none
        | _ => none
      some { fam1 := c1, fam2 := c2, number := numRest.1, enh := enhRest.1, part := part }
  | _ => none

/-- `re.finditer(CONTROL_PATTERN, line)`: left-to-right scan, matches are
non-overlapping, a failed position advances by one character.  Returns each
match with its start column.  The structural `fuel` only bounds the recursion;
every step consumes at least one character, so `fuel = line.length` (as used
by `findControlsLine`) never runs out. -/
def scanCtrlLine : Nat → Bool → Nat → Str → List (Nat × CtrlMatch)
  | 0, _, _, _ => []
  | _ + 1, _, _, [] => []
  | fuel + 1, prevWord, pos, c :: rest =>
    match matchControlAt prevWord (c :: rest) with
    | some m =>
      (pos, m) :: scanCtrlLine fuel (m.part.isSome || m.enh.isNone) (pos + ctrlMatchLen m)
        (List.drop (ctrlMatchLen m - 1) rest)
    | none => scanCtrlLine fuel (isWordCh c) (pos + 1) rest

/-- All `CONTROL_PATTERN` matches of one line. -/
def findControlsLine (line : Str) : List (Nat × CtrlMatch) :=
  scanCtrlLine line.length false 0 line

/-- `CONTROL_FAMILIES` table of `extract-controls.py`. -/
def CONTROL_FAMILIES : List (Str × Str) :=
  [(str "AC", str "Access Control"),
   (str "AT", str "Awareness and Training"),
   (str "AU", str "Audit and Accountability"),
   (str "CA", str "Assessment, Authorization, and Monitoring"),
   (str "CM", str "Configuration Management"),
   (str "CP", str "Contingency Planning"),
   (str "IA", str "Identification and Authentication"),
   (str "IR", str "Incident Response"),
   (str "MA", str "Maintenance"),
   (str "MP", str "Media Protection"),
   (str "PE", str "Physical and Environmental Protection"),
   (str "PL", str "Planning"),
   (str "PM", str "Program Management"),
   (str "PS", str "Personnel Security"),
   (str "PT", str "PII Processing and Transparency"),
   (str "RA", str "Risk Assessment"),
   (str "SA", str "System and Services Acquisition"),
   (str "SC", str "System and Communications Protection"),
   (str "SI", str "System and Information Integrity"),
   (str "SR", str "Supply Chain Risk Management")]

/-- `CONTROL_FAMILIES.get(family, "Unknown")`. -/
def familyName (fam : Str) : Str :=
  match assocFind CONTROL_FAMILIES fam with
  | some n => n
  | none => str "Unknown"

/-- One extracted control-reference record (the dict appended in
`extract_controls_from_file`; `source_path` omitted — it duplicates the file
name in this model). -/
structure ControlRef where
  control_id : Str
  control_family : Str
  control_family_name : Str
  base_control : Str
  has_enhancement : Bool
  enhancement_number : Option Str
  source_document : Str
  conversion_tool : Str
  line : Nat
  column : Nat
  context_snippet : Str
deriving DecidableEq

/-- Build the record for one match, as the loop body of
`extract_controls_from_file` does. -/
def mkControlRef (docName : Str) (tool : Str) (lineNum : Nat) (line : Str)
    (pos : Nat) (m : CtrlMatch) : ControlRef :=
  let fam : Str := [asciiUpperCh m.fam1, asciiUpperCh m.fam2]
  let base : Str := fam ++ '-' :: m.number
  let cid : Str := base
    ++ (match m.enh with | some e => '(' :: (e ++ [')']) | none => [])
    ++ (match m.part with | some p => ['.', asciiLowerCh p] | none => [])
  let stop := pos + ctrlMatchLen m
  { control_id := cid
    control_family := fam
    control_family_name := familyName fam
    base_control := base
    has_enhancement := m.enh.isSome
    enhancement_number := m.enh
    source_document := docName
    conversion_tool := tool
    line := lineNum
    column := pos
    context_snippet := trimChars ((line.take (min line.length (stop + 100))).drop (pos - 50)) }

/-- `extract_controls_from_file`: `none` content models a file whose
`read_text` raises — the function warns and returns the empty list. -/
def extract_controls_from_file (docName : Str) (content : Option Str) (tool : Str) :
    List ControlRef :=
  match content with
  | none => []
  | some text =>
    (List.enumFrom 1 (splitNl text)).flatMap fun p =>
      (findControlsLine p.2).map fun q => mkControlRef docName tool p.1 p.2 q.1 q.2

/-! ### Controls aggregation (`main` of `extract-controls.py`) -/

/-- The fixed, ordered backend list `['pandoc', 'markitdown', 'docling']`. -/
def backends : List Str := [str "pandoc", str "markitdown", str "docling"]

/-- One markdown file presented to an extractor: its name and its content
(`none` when `read_text` raises). -/
structure MdFile where
  name : Str
  content : Option Str
deriving DecidableEq

/-- The corpus `all_controls` assembled by `main`: for each backend in the
fixed order, its (name-sorted) markdown files are processed in order. -/
def mainControls (pandocFiles markitdownFiles doclingFiles : List MdFile) : List ControlRef :=
  (pandocFiles.flatMap fun f => extract_controls_from_file f.name f.content (str "pandoc"))
    ++ (markitdownFiles.flatMap fun f =>
          extract_controls_from_file f.name f.content (str "markitdown"))
    ++ (doclingFiles.flatMap fun f => extract_controls_from_file f.name f.content (str "docling"))

/-- `by_family` tallies (insertion-ordered, as a Python dict). -/
def byFamily (ctrls : List ControlRef) : List (Str × Nat) :=
  ctrls.foldl (fun acc c => assocAdd acc c.control_family) []

/-- `by_tool` tallies (insertion-ordered). -/
def byTool (ctrls : List ControlRef) : List (Str × Nat) :=
  ctrls.foldl (fun acc c => assocAdd acc c.conversion_tool) []

/-- `by_document` tallies (insertion-ordered). -/
def byDocument (ctrls : List ControlRef) : List (Str × Nat) :=
  ctrls.foldl (fun acc c => assocAdd acc c.source_document) []

/-- `by_control`: for each control id, the list of conversion tools of its
occurrence records, in discovery order. -/
def byControl (ctrls : List ControlRef) : List (Str × List Str) :=
  foldAppend (ctrls.map fun c => (c.control_id, c.conversion_tool))

/-- `controls_all_tools = [cid for cid, tools in by_control.items()
if len(set(tools)) == 3]`, before sorting. -/
def controlsAllTools (ctrls : List ControlRef) : List Str :=
  ((byControl ctrls).filter fun p => p.2.dedup.length = 3).map Prod.fst

/-- The `summary` object of `controls.json`. -/
structure ControlsSummary where
  total_references : Nat
  unique_controls : Nat
  by_family : List (Str × Nat)
  by_tool : List (Str × Nat)
  by_document : List (Str × Nat)
  controls_found_by_all_tools : List Str
  control_families_covered : List Str
deriving DecidableEq

/-- The serialized summary: `by_family` is emitted via `dict(sorted(...))`,
`by_tool` and `by_document` via plain `dict(...)` (insertion order),
`controls_found_by_all_tools` and `control_families_covered` via `sorted(...)`. -/
def controlsSummary (ctrls : List ControlRef) : ControlsSummary :=
  { total_references := ctrls.length
    unique_controls := (byControl ctrls).length
    by_family := sortPairs (byFamily ctrls)
    by_tool := byTool ctrls
    by_document := byDocument ctrls
    controls_found_by_all_tools := sortStrs (controlsAllTools ctrls)
    control_families_covered := sortStrs ((byFamily ctrls).map Prod.fst) }

/-! ## Metadata Extractor (`extract-metadata.py`) -/

/-- Consume a literal: `litAt lit s` returns the remainder of `s` when `lit`
is an initial segment of `s`. -/
def litAt : Str → Str → Option Str
  | [], s => some s
  | _ :: _, [] => none
  | l :: ls, c :: rest => if c = l then litAt ls rest else none

/-- First alternative of a regex alternation that matches at the head
(the alternatives used below start with pairwise distinct characters, so no
backtracking across alternatives can occur). -/
def firstLitAt (lits : List Str) (s : Str) : Option Str :=
  match lits with
  | [] => none
  | l :: ls =>
    match litAt l s with
    | some r => some r
    | none => firstLitAt ls s

/-- First candidate (in order) on which `f` succeeds: regex backtracking over
an explicit candidate list. -/
def firstSome {α β : Type} : List α → (α → Option β) → Option β
  | [], _ => none
  | a :: as, f =>
    match f a with
    | some b => some b
    | none => firstSome as f

/-- `\d{n}`: exactly `n` digits (more digits may follow the match). -/
def takeDigitsN : Nat → Str → Option (Str × Str)
  | 0, s => some ([], s)
  | _ + 1, [] => none
  | n + 1, c :: rest =>
    if isAsciiDigitCh c then (takeDigitsN n rest).map (fun p => (c :: p.1, p.2)) else none

/-- `[0-9]+`: greedy maximal digit run, at least one. -/
def digitsPlus (s : Str) : Option (Str × Str) :=
  let p := s.span isAsciiDigitCh
  if p.1.isEmpty then none else some p

/-- `\d{1,2}` candidate splits in greedy order: two digits first, then one. -/
def digits12 (s : Str) : List (Str × Str) :=
  match s with
  | d1 :: d2 :: r =>
    if isAsciiDigitCh d1 then
      if isAsciiDigitCh d2 then [([d1, d2], r), ([d1], d2 :: r)] else [([d1], d2 :: r)]
    else []
  | [d1] => if isAsciiDigitCh d1 then [([d1], [])] else []
  | [] => []

/-- `(?:\.[0-9]+)*`: greedy repetition, returning matched text and remainder
(nothing follows it in the patterns below, so it never backtracks). -/
def dotDigitsStarGo : Nat → Str → Str × Str
  | 0, s => ([], s)
  | fuel + 1, s =>
    match s with
    | '.' :: r =>
      let ds := r.takeWhile isAsciiDigitCh
      if ds.isEmpty then ([], '.' :: r)
      else
        let q := dotDigitsStarGo fuel (r.dropWhile isAsciiDigitCh)
        ('.' :: (ds ++ q.1), q.2)
    | s => ([], s)

/-- `(?:\.[0-9]+)*` with sufficient fuel. -/
def dotDigitsStar (s : Str) : Str × Str := dotDigitsStarGo s.length s

/-- `re.finditer` for a matcher that returns `(group(1), remainder)`:
left-to-right scan, non-overlapping matches, failed positions advance by one
character.  All matchers below consume at least one character. -/
def findIterGo (matcher : Str → Option (Str × Str)) : Nat → Str → List Str
  | 0, _ => []
  | _ + 1, [] => []
  | fuel + 1, c :: rest =>
    match matcher (c :: rest) with
    | some (g, after) =>
      let consumed := rest.length + 1 - after.length
      g :: findIterGo matcher fuel (List.drop (consumed - 1) rest)
    | none => findIterGo matcher fuel rest

/-- `re.finditer` of a matcher over `s` (fuel `s.length` never runs out). -/
def findIter (matcher : Str → Option (Str × Str)) (s : Str) : List Str :=
  findIterGo matcher s.length s

/-! `TITLE_PATTERNS` -/

/-- `r'^#\s+(.+)$'` applied by `re.match` to one (newline-free) line:
a `#`, at least one whitespace character, then the group; when everything
after the whitespace run is empty, `\s+` backs off one character so that
`(.+)` captures a single whitespace character. -/
def titleH1Match (line : Str) : Option Str :=
  match line with
  | '#' :: rest =>
    let sp := rest.span isSpaceCh
    if sp.1.isEmpty then none
    else if !sp.2.isEmpty then some sp.2
    else if 2 ≤ sp.1.length then some [sp.1.getLastD ' ']
    else none
  | _ => none

/-- `r'^(.+)\n={3,}$'` applied by `re.match`: the group is the (nonempty)
text before the first newline, which must be followed by at least three `=`
and then end-of-line. -/
def titleUnderlineMatch (line : Str) : Option Str :=
  let t := line.span (· ≠ '\n')
  if t.1.isEmpty then none
  else
    match t.2 with
    | '\n' :: r2 =>
      let eqs := r2.span (· = '=')
      if 3 ≤ eqs.1.length ∧ (eqs.2.isEmpty || eqs.2.head? = some '\n') then some t.1
      else none
    | _ => none

/-- The title loop of `extract_metadata_from_file`: for each of the first 20
lines try the two patterns in order; a match overwrites the title with the
stripped group; the outer loop stops as soon as the title is truthy
(non-`None` and non-empty). -/
def titleScan (t : Option Str) : List Str → Option Str
  | [] => t
  | line :: rest =>
    let t' :=
      match titleH1Match line with
      | some g => some (trimChars g)
      | none =>
        match titleUnderlineMatch line with
        | some g => some (trimChars g)
        | none => t
    if t'.getD [] ≠ [] then t' else titleScan t' rest

/-- `title` of one document: search only the first 20 lines. -/
def titleOf (lines : List Str) : Option Str := titleScan none (lines.take 20)

/-! `VERSION_PATTERNS` -/

/-- `r'[Vv]ersion[:\s]+([0-9]+(?:\.[0-9]+)*)'`. -/
def matchVersion1 (s : Str) : Option (Str × Str) :=
  match s with
  | [] => none
  | c :: r =>
    if c = 'V' ∨ c = 'v' then
      match litAt (str "ersion") r with
      | some r1 =>
        let sep := r1.span (fun c => c = ':' || isSpaceCh c)
        if sep.1.isEmpty then none
        else
          match digitsPlus sep.2 with
          | some (ds, r2) =>
            let q := dotDigitsStar r2
            some (ds ++ q.1, q.2)
          | none => none
      | none => none
    else none

/-- `r'[Vv]\.?\s*([0-9]+(?:\.[0-9]+)+)'`; the optional `\.?` is tried with the
dot first, then without. -/
def matchVersion2 (s : Str) : Option (Str × Str) :=
  let body : Str → Option (Str × Str) := fun r1 =>
    let sp := r1.span isSpaceCh
    match digitsPlus sp.2 with
    | some (ds, r2) =>
      let q := dotDigitsStar r2
      if q.1.isEmpty then none else some (ds ++ q.1, q.2)
    | none => none
  match s with
  | [] => none
  | c :: r =>
    if c = 'V' ∨ c = 'v' then
      match r with
      | '.' :: r1 =>
        match body r1 with
        | some res => some res
        | none => body ('.' :: r1)
      | _ => body r
    else none

/-- `r'[Rr]evision[:\s]+([0-9]+(?:\.[0-9]+)*)'`. -/
def matchVersion3 (s : Str) : Option (Str × Str) :=
  match s with
  | [] => none
  | c :: r =>
    if c = 'R' ∨ c = 'r' then
      match litAt (str "evision") r with
      | some r1 =>
        let sep := r1.span (fun c => c = ':' || isSpaceCh c)
        if sep.1.isEmpty then none
        else
          match digitsPlus sep.2 with
          | some (ds, r2) =>
            let q := dotDigitsStar r2
            some (ds ++ q.1, q.2)
          | none => none
      | none => none
    else none

/-- The version loop: `re.search` (first match anywhere) of the three
patterns tried in priority order. -/
def versionOf (content : Str) : Option Str :=
  match (findIter matchVersion1 content).head? with
  | some v => some v
  | none =>
    match (findIter matchVersion2 content).head? with
    | some v => some v
    | none => (findIter matchVersion3 content).head?

/-! `DATE_PATTERNS` -/

/-- `\d{4}-\d{2}-\d{2}`. -/
def isoDateAt (s : Str) : Option (Str × Str) :=
  match takeDigitsN 4 s with
  | some (y, '-' :: r1) =>
    match takeDigitsN 2 r1 with
    | some (mo, '-' :: r2) =>
      match takeDigitsN 2 r2 with
      | some (d, r3) => some (y ++ '-' :: (mo ++ '-' :: d), r3)
      | none => none
    | _ => none
  | _ => none

/-- `r'(?:Effective|Date|Updated|Revised)[:\s]+(\d{4}-\d{2}-\d{2})'`. -/
def matchDateA (s : Str) : Option (Str × Str) :=
  match firstLitAt [str "Effective", str "Date", str "Updated", str "Revised"] s with
  | none => none
  | some r1 =>
    let sep := r1.span (fun c => c = ':' || isSpaceCh c)
    if sep.1.isEmpty then none else isoDateAt sep.2

/-- `r'(\d{4}-\d{2}-\d{2})'`. -/
def matchDateB (s : Str) : Option (Str × Str) := isoDateAt s

/-- `r'(\d{1,2}/\d{1,2}/\d{4})'` with the greedy `\d{1,2}` backtracking. -/
def matchDateC (s : Str) : Option (Str × Str) :=
  firstSome (digits12 s) fun p1 =>
    match p1.2 with
    | '/' :: r2 =>
      firstSome (digits12 r2) fun p2 =>
        match p2.2 with
        | '/' :: r4 =>
          match takeDigitsN 4 r4 with
          | some (y, r5) => some (p1.1 ++ '/' :: (p2.1 ++ '/' :: y), r5)
          | none => none
        | _ => none
    | _ => none

/-- `r'([A-Z][a-z]+ \d{1,2},? \d{4})'`; `\d{1,2}` and `,?` are greedy and
backtrack in that nesting order. -/
def matchDateD (s : Str) : Option (Str × Str) :=
  match s with
  | [] => none
  | c :: r =>
    if !(isAsciiUpperCh c) then none
    else
      let w := r.span isAsciiLowerCh
      if w.1.isEmpty then none
      else
        match w.2 with
        | ' ' :: r2 =>
          firstSome (digits12 r2) fun p =>
            let noComma : Str → Option (Str × Str) := fun r3 =>
              match r3 with
              | ' ' :: r4 =>
                match takeDigitsN 4 r4 with
                | some (y, r5) => some (c :: (w.1 ++ ' ' :: (p.1 ++ ' ' :: y)), r5)
                | none => none
              | _ => none
            match p.2 with
            | ',' :: r3 =>
              match r3 with
              | ' ' :: r4 =>
                match takeDigitsN 4 r4 with
                | some (y, r5) => some (c :: (w.1 ++ ' ' :: (p.1 ++ ',' :: ' ' :: y)), r5)
                | none => noComma p.2
              | _ => noComma p.2
            | _ => noComma p.2
        | _ => none

/-- The inner date loop body: append each newly seen date literal; after an
append, a length of at least 5 breaks out of the *inner* loop only. -/
def addDates (found : List Str) : List Str → List Str
  | [] => found
  | d :: rest =>
    if d ∈ found then addDates found rest
    else
      let f2 := found ++ [d]
      if 5 ≤ f2.length then f2 else addDates f2 rest

/-- `dates_found`: the four `DATE_PATTERNS` processed in priority order. -/
def datesFound (content : Str) : List Str :=
  addDates
    (addDates
      (addDates (addDates [] (findIter matchDateA content)) (findIter matchDateB content))
      (findIter matchDateC content))
    (findIter matchDateD content)

/-! Document type, control families, statistics -/

/-- `DOCUMENT_TYPE_KEYWORDS` (dict iteration order). -/
def DOCUMENT_TYPE_KEYWORDS : List (Str × List Str) :=
  [(str "policy", [str "policy", str "policies"]),
   (str "procedure", [str "procedure", str "process", str "workflow"]),
   (str "ssp", [str "system security plan", str "ssp", str "security plan"]),
   (str "poam", [str "plan of action", str "poa&m", str "poam", str "milestones"]),
   (str "sar", [str "security assessment", str "sar", str "assessment report"]),
   (str "plan", [str "plan", str "planning"]),
   (str "guide", [str "guide", str "guidance", str "handbook"])]

/-- Python substring test `needle in hay`. -/
def containsSeq (needle hay : Str) : Bool :=
  match hay with
  | [] => needle.isEmpty
  | _ :: rest => (litAt needle hay).isSome || containsSeq needle rest

/-- The document-type loop: first type any of whose keywords occurs in the
lowercased content; default `"unknown"`. -/
def docTypeOf (content : Str) : Str :=
  let lower := content.map asciiLowerCh
  match DOCUMENT_TYPE_KEYWORDS.find? (fun p => p.2.any fun kw => containsSeq kw lower) with
  | some p => p.1
  | none => str "unknown"

/-- One attempt of the metadata `CONTROL_PATTERN = \b([A-Z]{2})-\d+`
(case-SENSITIVE, unlike the control extractor) at the head of `s`;
returns the group and the consumed length. -/
def matchFamAt (prevWord : Bool) (s : Str) : Option (Str × Nat) :=
  match s with
  | c1 :: c2 :: '-' :: d1 :: rest =>
    if prevWord || !(isAsciiUpperCh c1 && isAsciiUpperCh c2 && isAsciiDigitCh d1) then none
    else some ([c1, c2], 4 + (rest.takeWhile isAsciiDigitCh).length)
  | _ => none

/-- `re.finditer` of the metadata `CONTROL_PATTERN` over the whole content
(its matches cannot span a newline, and the last consumed character is always
a digit, hence a word character). -/
def scanFamsGo : Nat → Bool → Str → List Str
  | 0, _, _ => []
  | _ + 1, _, [] => []
  | fuel + 1, prevWord, c :: rest =>
    match matchFamAt prevWord (c :: rest) with
    | some (g, consumed) => g :: scanFamsGo fuel true (List.drop (consumed - 1) rest)
    | none => scanFamsGo fuel (isWordCh c) rest

/-- All metadata `CONTROL_PATTERN` matches of the content. -/
def scanFams (s : Str) : List Str := scanFamsGo s.length false s

/-- `control_families`: the sorted set of uppercased groups. -/
def metaControlFamilies (content : Str) : List Str :=
  sortStrs (((scanFams content).map fun g => g.map asciiUpperCh).dedup)

def wordCountGo : Nat → Str → Nat
  | 0, _ => 0
  | _ + 1, [] => 0
  | fuel + 1, c :: rest =>
    if isSpaceCh c then wordCountGo fuel rest
    else 1 + wordCountGo fuel (rest.dropWhile fun c => !isSpaceCh c)

/-- `len(content.split())`: number of maximal non-whitespace runs. -/
def wordCount (s : Str) : Nat := wordCountGo s.length s

/-- The lines of the content, each flagged with whether a newline follows it
(the trailing newline is visible to `\s` in the `MULTILINE` line-start
patterns below). -/
def linesNl : Str → List (Str × Bool)
  | [] => [([], false)]
  | c :: rest =>
    if c = '\n' then ([], true) :: linesNl rest
    else
      match linesNl rest with
      | [] => [([c], false)]
      | (l, b) :: ls => (c :: l, b) :: ls

/-- One match of `r'^#+\s'` (`re.MULTILINE`) at this line's start: a maximal
run of `#`, then a whitespace character — possibly the line's own newline. -/
def isHeadingLine (p : Str × Bool) : Bool :=
  let hs := p.1.span (· = '#')
  !hs.1.isEmpty && (match hs.2 with | c :: _ => isSpaceCh c | [] => p.2)

/-- One match of `r'^\|'` at this line's start. -/
def isTableRowLine (p : Str × Bool) : Bool :=
  match p.1 with
  | '|' :: _ => true
  | _ => false

/-- One match of `r'^[\-\*]\s'` at this line's start. -/
def isListItemLine (p : Str × Bool) : Bool :=
  match p.1 with
  | c :: rest => (c = '-' || c = '*') && (match rest with | c2 :: _ => isSpaceCh c2 | [] => p.2)
  | [] => false

/-- The metadata of one document (`source_path` omitted as for controls). -/
structure DocumentMetadata where
  source_file : Str
  conversion_tool : Str
  title : Option Str
  document_type : Str
  version : Option Str
  dates_found : List Str
  control_families : List Str
  word_count : Nat
  line_count : Nat
  heading_count : Nat
  table_row_count : Nat
  list_item_count : Nat
deriving DecidableEq

/-- Result of `extract_metadata_from_file`: a metadata dict, or — when
`read_text` raises — the dict `{"error": str(e)}` (modelled as `err`; the
message text plays no role downstream). -/
inductive MetaResult where
  | ok (m : DocumentMetadata)
  | err
deriving DecidableEq

/-- `extract_metadata_from_file`. -/
def extract_metadata_from_file (name : Str) (content : Option Str) (tool : Str) : MetaResult :=
  match content with
  | none => .err
  | some text =>
    let lines := splitNl text
    .ok
      { source_file := name
        conversion_tool := tool
        title := titleOf lines
        document_type := docTypeOf text
        version := versionOf text
        dates_found := datesFound text
        control_families := metaControlFamilies text
        word_count := wordCount text
        line_count := lines.length
        heading_count := ((linesNl text).filter isHeadingLine).length
        table_row_count := ((linesNl text).filter isTableRowLine).length
        list_item_count := ((linesNl text).filter isListItemLine).length }

/-! ### Metadata aggregation (`main` of `extract-metadata.py`) -/

/-- `meta.get('document_type', 'unknown')` — the error dict has no such key. -/
def docTypeOfResult : MetaResult → Str
  | .ok m => m.document_type
  | .err => str "unknown"

/-- `meta.get('control_families', [])`. -/
def famsOfResult : MetaResult → List Str
  | .ok m => m.control_families
  | .err => []

/-- `meta.get('statistics', {}).get('word_count', 0)`. -/
def wordsOfResult : MetaResult → Nat
  | .ok m => m.word_count
  | .err => 0

/-- `all_metadata` assembled by `main`: every per-file result — including the
error dicts — is appended. -/
def mainMetadata (pandocFiles markitdownFiles doclingFiles : List MdFile) : List MetaResult :=
  (pandocFiles.map fun f => extract_metadata_from_file f.name f.content (str "pandoc"))
    ++ (markitdownFiles.map fun f => extract_metadata_from_file f.name f.content (str "markitdown"))
    ++ (doclingFiles.map fun f => extract_metadata_from_file f.name f.content (str "docling"))

/-- The `summary` object of `metadata.json`; `by_type` is a plain
`dict(doc_types)` in insertion order. -/
structure MetadataSummary where
  total_documents : Nat
  by_type : List (Str × Nat)
  all_control_families : List Str
  total_word_count : Nat
deriving DecidableEq

/-- `main`'s summary computation. -/
def metadataSummary (docs : List MetaResult) : MetadataSummary :=
  { total_documents := docs.length
    by_type := docs.foldl (fun acc r => assocAdd acc (docTypeOfResult r)) []
    all_control_families := sortStrs ((docs.flatMap famsOfResult).dedup)
    total_word_count := (docs.map wordsOfResult).sum }

/-! ## Entity Extractor (`extract-entities.py`)

The per-category regex tables of `ENTITY_PATTERNS` are large alternation
patterns whose only use here is to produce `re.finditer` match streams; they
are modelled abstractly: an `EntityTable` gives, for each entity type in dict
order, one finditer result list per pattern, in pattern order.  Everything the
claims speak about — normalization, grouping, occurrence counting, context
sampling — is embedded concretely. -/

/-- One `re.finditer` match: its span and its `group(1)` text. -/
structure RawMatch where
  start : Nat
  stop : Nat
  value : Str
deriving DecidableEq

/-- Abstract model of `ENTITY_PATTERNS` applied to one document. -/
abbrev EntityTable := List (Str × List (List RawMatch))

/-- One emitted entity record. -/
structure EntityRecord where
  entity_type : Str
  value : Str
  occurrences : Nat
  source_document : Str
  conversion_tool : Str
  sample_contexts : List Str
deriving DecidableEq

/-- The categories receiving the acronym/title-case normalization. -/
def ENTITY_CASED_TYPES : List Str :=
  [str "role", str "organization", str "system", str "standard"]

/-- Model of Python `str.title()` (ASCII): a letter is uppercased when the
preceding character is not a letter, lowercased otherwise. -/
def pyTitleGo : Bool → Str → Str
  | _, [] => []
  | prevCased, c :: rest =>
    (if isAsciiLetterCh c then (if prevCased then asciiLowerCh c else asciiUpperCh c) else c)
      :: pyTitleGo (isAsciiLetterCh c) rest

/-- Python `str.title()`. -/
def pyTitle (s : Str) : Str := pyTitleGo false s

/-- The normalization applied to `match.group(1)`: strip, then for the cased
categories upper-case values of length at most 5 and title-case longer ones. -/
def normalizeValue (t : Str) (v : Str) : Str :=
  let n := trimChars v
  if t ∈ ENTITY_CASED_TYPES then
    if n.length ≤ 5 then n.map asciiUpperCh else pyTitle n
  else n

/-- The context window: 30 characters each side of the match, clipped to the
content, newlines flattened to spaces, stripped. -/
def entityContext (content : Str) (m : RawMatch) : Str :=
  trimChars (((content.take (min content.length (m.stop + 30))).drop (m.start - 30)).map
    fun c => if c = '\n' then ' ' else c)

/-- The per-category loop body: every match of every pattern of the category,
in order, appends its context under its normalized value
(`found_values[normalized].append(context)`). -/
def processEntityType (content : Str) (t : Str) (groups : List (List RawMatch)) :
    List (Str × List Str) :=
  foldAppend (groups.flatten.map fun m => (normalizeValue t m.value, entityContext content m))

/-- `extract_entities_from_file`: one record per distinct normalized value of
each category, with total occurrence count and up to 3 sample contexts.
`none` content models an unreadable file (warn, return the empty list). -/
def extract_entities_from_file (docName : Str) (content : Option Str) (tool : Str)
    (table : EntityTable) : List EntityRecord :=
  match content with
  | none => []
  | some text =>
    table.flatMap fun p =>
      (processEntityType text p.1 p.2).map fun q =>
        { entity_type := p.1
          value := q.1
          occurrences := q.2.length
          source_document := docName
          conversion_tool := tool
          sample_contexts := q.2.take 3 }

/-! ### Entities aggregation (`main` of `extract-entities.py`) -/

/-- `by_type[t] += occurrences` (`defaultdict(int)`). -/
def assocAddN {α : Type} [DecidableEq α] (l : List (α × Nat)) (k : α) (n : Nat) :
    List (α × Nat) :=
  match l with
  | [] => [(k, n)]
  | (k', v) :: rest => if k = k' then (k', v + n) :: rest else (k', v) :: assocAddN rest k n

/-- `by_type` of the entities summary. -/
def entByType (ents : List EntityRecord) : List (Str × Nat) :=
  ents.foldl (fun acc e => assocAddN acc e.entity_type e.occurrences) []

/-- `unique_by_type` (`defaultdict(set)`, the set as a dedup list). -/
def entUniqueByType (ents : List EntityRecord) : List (Str × List Str) :=
  foldInsert (ents.map fun e => (e.entity_type, e.value))

/-- The `summary` object of `entities.json`: `by_type` iterates
`sorted(by_type.items())` and pairs each total with
`len(unique_by_type[k])`; `unique_values_by_type` iterates
`unique_by_type.items()` in insertion order and emits `sorted(v)[:20]`. -/
structure EntitiesSummary where
  total_entities : Nat
  total_occurrences : Nat
  by_type : List (Str × Nat × Nat)
  unique_values_by_type : List (Str × List Str)
deriving DecidableEq

/-- `main`'s summary computation for entities. -/
def entitiesSummary (ents : List EntityRecord) : EntitiesSummary :=
  { total_entities := ents.length
    total_occurrences := (ents.map (·.occurrences)).sum
    by_type := (sortPairs (entByType ents)).map fun p =>
      (p.1, p.2, ((assocFind (entUniqueByType ents) p.1).getD []).length)
    unique_values_by_type := (entUniqueByType ents).map fun p => (p.1, (sortStrs p.2).take 20) }

/-! ## Concrete scenario data and derived constructors used in the claim
statements -/

/-- The corpus of a run in which the only markdown file cannot be read. -/
def unreadableOnly : List MdFile := [⟨str "doc.md", none⟩]

/-- A document holding seven distinct matchable date literals: five labeled
ISO dates and two bare ISO dates. -/
def sevenDatesDoc : Str := str
  "Date: 2024-01-01 Date: 2024-01-02 Date: 2024-01-03 Date: 2024-01-04 Date: 2024-01-05 2024-01-06 2024-01-07"

/-- A document whose only heading in the first 20 lines is underline-style. -/
def underlineDoc : Str := str "Access Control Policy\n=====================\n\nSome policy text."

/-- The single-file pandoc and docling corpora of the C4 counterexample run. -/
def c4PandocFiles : List MdFile := [⟨str "a.md", some (str "AC-1")⟩]

/-- Docling corpus of the C4 counterexample run. -/
def c4DoclingFiles : List MdFile := [⟨str "a.md", some (str "AC-1")⟩]

/-- Witness corpus for C1: one document converted by all three backends;
`AC-1` is seen under every backend, `SC-7` only under pandoc. -/
def c1Corpus : List ControlRef :=
  mainControls [⟨str "a.md", some (str "AC-1 SC-7")⟩] [⟨str "a.md", some (str "AC-1")⟩]
    [⟨str "a.md", some (str "AC-1")⟩]

/-- The record constructor applied to one `(normalized value, contexts)` entry
of a category's accumulation. -/
def mkEntityRecord (docName tool t : Str) (w : Str × List Str) : EntityRecord :=
  { entity_type := t
    value := w.1
    occurrences := w.2.length
    source_document := docName
    conversion_tool := tool
    sample_contexts := w.2.take 3 }

/-- Witness content for C7. -/
def c7Content : Str := str "CISO and ciso and CTO"

/-- Witness table for C7: one `role` category whose two patterns produce
three raw matches, two of which normalize to the same value `CISO`. -/
def c7Table : EntityTable :=
  [(str "role",
    [[⟨0, 4, str "CISO"⟩, ⟨9, 13, str "ciso"⟩], [⟨18, 21, str "CTO"⟩]])]

/-- Witness corpus for C10: two distinct `role` values and one `system`
value. -/
def c10Ents : List EntityRecord :=
  [{ entity_type := str "role", value := str "CISO", occurrences := 2,
     source_document := str "a.md", conversion_tool := str "pandoc",
     sample_contexts := [str "ctx1", str "ctx2"] },
   { entity_type := str "role", value := str "AO", occurrences := 1,
     source_document := str "a.md", conversion_tool := str "pandoc",
     sample_contexts := [str "ctx3"] },
   { entity_type := str "system", value := str "AWS", occurrences := 1,
     source_document := str "a.md", conversion_tool := str "pandoc",
     sample_contexts := [str "ctx4"] }]

/-- The canonical rendering `FF-N[(E)][.p]` of control-id components. -/
def canonicalControl (f1 f2 : Char) (num : Str) (enh : Option Str) (part : Option Char) :
    Str :=
  f1 :: f2 :: '-' :: num
    ++ (match enh with | some e => '(' :: (e ++ [')']) | none => [])
    ++ (match part with | some p => ['.', p] | none => [])

/-! ## Association-list lemmas -/

section AssocLemmas

variable {α β : Type} [DecidableEq α]

theorem assocFind_eq_none_iff (l : List (α × β)) (k : α) :
    assocFind l k = none ↔ k ∉ l.map Prod.fst := by
  induction l with
  | nil => simp [assocFind]
  | cons p rest ih =>
    obtain ⟨k0, v0⟩ := p
    by_cases h : k = k0 <;> simp [assocFind, h, ih]

theorem mem_of_assocFind {l : List (α × β)} {k : α} {v : β}
    (h : assocFind l k = some v) : (k, v) ∈ l := by
  induction l with
  | nil => simp [assocFind] at h
  | cons p rest ih =>
    obtain ⟨k0, v0⟩ := p
    by_cases hk : k = k0
    · subst hk
      simp [assocFind] at h
      simp [h]
    · simp [assocFind, hk] at h
      exact List.mem_cons_of_mem _ (ih h)

theorem assocFind_of_mem {l : List (α × β)} (hn : (l.map Prod.fst).Nodup)
    {k : α} {v : β} (hm : (k, v) ∈ l) : assocFind l k = some v := by
  induction l with
  | nil => simp at hm
  | cons p rest ih =>
    obtain ⟨k0, v0⟩ := p
    simp only [List.map_cons, List.nodup_cons] at hn
    rcases List.mem_cons.mp hm with h | h
    · rw [Prod.mk.injEq] at h
      simp [assocFind, h.1, h.2]
    · have hk : k ≠ k0 := by
        rintro rfl
        exact hn.1 (List.mem_map.mpr ⟨(k, v), h, rfl⟩)
      simp [assocFind, hk, ih hn.2 h]

theorem assocFind_assocAppend (l : List (α × List β)) (k k' : α) (b : β) :
    assocFind (assocAppend l k b) k' =
      if k' = k then some ((assocFind l k).getD [] ++ [b]) else assocFind l k' := by
  induction l with
  | nil =>
    by_cases h : k' = k <;> simp [assocAppend, assocFind, h]
  | cons p rest ih =>
    obtain ⟨k0, bs⟩ := p
    by_cases hk : k = k0
    · subst hk
      by_cases h' : k' = k <;> simp [assocAppend, assocFind, h']
    · by_cases h' : k' = k0
      · subst h'
        have hk2 : ¬ k' = k := fun h => hk h.symm
        simp [assocAppend, hk, assocFind, hk2]
      · simp [assocAppend, hk, assocFind, h', ih]

theorem keys_assocAppend (l : List (α × List β)) (k : α) (b : β) :
    (assocAppend l k b).map Prod.fst
      = if k ∈ l.map Prod.fst then l.map Prod.fst else l.map Prod.fst ++ [k] := by
  induction l with
  | nil => simp [assocAppend]
  | cons p rest ih =>
    obtain ⟨k0, bs⟩ := p
    by_cases hk : k = k0
    · subst hk
      simp [assocAppend]
    · simp only [assocAppend, if_neg hk, List.map_cons, ih]
      by_cases hmem : k ∈ rest.map Prod.fst <;> simp [hmem, hk]

theorem assocFind_foldl_append [DecidableEq β] (l : List (α × β)) (acc : List (α × List β))
    (k : α) :
    assocFind (l.foldl (fun a p => assocAppend a p.1 p.2) acc) k
      = if assocFind acc k = none ∧ (l.filter fun p => p.1 = k) = [] then none
        else some ((assocFind acc k).getD []
          ++ ((l.filter fun p => p.1 = k).map Prod.snd)) := by
  induction l generalizing acc with
  | nil =>
    cases h : assocFind acc k <;> simp [h]
  | cons p rest ih =>
    rw [List.foldl_cons, ih, assocFind_assocAppend]
    by_cases hp : p.1 = k
    · simp [hp, List.filter_cons]
    · have h2 : ¬ k = p.1 := fun h => hp h.symm
      have hfc : List.filter (fun q => decide (q.1 = k)) (p :: rest)
          = List.filter (fun q => decide (q.1 = k)) rest := by
        rw [List.filter_cons, if_neg (by simpa using hp)]
      rw [if_neg h2, hfc]

theorem assocFind_foldAppend [DecidableEq β] (l : List (α × β)) (k : α) :
    assocFind (foldAppend l) k
      = if (l.filter fun p => p.1 = k) = [] then none
        else some ((l.filter fun p => p.1 = k).map Prod.snd) := by
  have h := assocFind_foldl_append l [] k
  simp only [foldAppend]
  rw [h]
  by_cases hf : (l.filter fun p => p.1 = k) = [] <;> simp [hf, assocFind]

theorem keys_nodup_foldl_append (l : List (α × β)) (acc : List (α × List β))
    (hacc : (acc.map Prod.fst).Nodup) :
    (((l.foldl (fun a p => assocAppend a p.1 p.2) acc)).map Prod.fst).Nodup := by
  induction l generalizing acc with
  | nil => exact hacc
  | cons p rest ih =>
    rw [List.foldl_cons]
    refine ih _ ?_
    rw [keys_assocAppend]
    by_cases hmem : p.1 ∈ acc.map Prod.fst
    · simpa [hmem] using hacc
    · simp only [hmem, if_false]
      rw [← List.concat_eq_append]
      exact hacc.concat hmem

theorem keys_nodup_foldAppend (l : List (α × β)) :
    ((foldAppend l).map Prod.fst).Nodup :=
  keys_nodup_foldl_append l [] (by simp)

theorem mem_foldAppend_iff [DecidableEq β] (l : List (α × β)) (k : α) (vs : List β) :
    (k, vs) ∈ foldAppend l
      ↔ (l.filter fun p => p.1 = k) ≠ []
          ∧ vs = (l.filter fun p => p.1 = k).map Prod.snd := by
  constructor
  · intro h
    have hf := assocFind_of_mem (keys_nodup_foldAppend l) h
    rw [assocFind_foldAppend] at hf
    by_cases hne : (l.filter fun p => p.1 = k) = []
    · simp [hne] at hf
    · simp only [hne, if_false, Option.some.injEq] at hf
      exact ⟨hne, hf.symm⟩
  · rintro ⟨hne, rfl⟩
    apply mem_of_assocFind (l := foldAppend l)
    rw [assocFind_foldAppend]
    simp [hne]

theorem assocFind_assocInsert [DecidableEq β] (l : List (α × List β)) (k k' : α) (b : β) :
    assocFind (assocInsert l k b) k'
      = if k' = k then
          some (if b ∈ (assocFind l k).getD [] then (assocFind l k).getD []
                else (assocFind l k).getD [] ++ [b])
        else assocFind l k' := by
  induction l with
  | nil =>
    by_cases h : k' = k <;> simp [assocInsert, assocFind, h]
  | cons p rest ih =>
    obtain ⟨k0, bs⟩ := p
    by_cases hk : k = k0
    · subst hk
      by_cases h' : k' = k <;> simp [assocInsert, assocFind, h']
    · by_cases h' : k' = k0
      · subst h'
        have hk2 : ¬ k' = k := fun h => hk h.symm
        simp [assocInsert, hk, assocFind, hk2]
      · simp [assocInsert, hk, assocFind, h', ih]

theorem keys_assocInsert [DecidableEq β] (l : List (α × List β)) (k : α) (b : β) :
    (assocInsert l k b).map Prod.fst
      = if k ∈ l.map Prod.fst then l.map Prod.fst else l.map Prod.fst ++ [k] := by
  induction l with
  | nil => simp [assocInsert]
  | cons p rest ih =>
    obtain ⟨k0, bs⟩ := p
    by_cases hk : k = k0
    · subst hk
      simp [assocInsert]
    · simp only [assocInsert, if_neg hk, List.map_cons, ih]
      by_cases hmem : k ∈ rest.map Prod.fst <;> simp [hmem, hk]

theorem mem_keys_foldl_insert [DecidableEq β] (l : List (α × β))
    (acc : List (α × List β)) (k : α) :
    k ∈ ((l.foldl (fun a p => assocInsert a p.1 p.2) acc).map Prod.fst)
      ↔ k ∈ acc.map Prod.fst ∨ k ∈ l.map Prod.fst := by
  induction l generalizing acc with
  | nil => simp
  | cons p rest ih =>
    rw [List.foldl_cons, ih]
    rw [keys_assocInsert]
    by_cases hmem : p.1 ∈ acc.map Prod.fst
    · simp only [hmem, if_true, List.map_cons, List.mem_cons]
      constructor
      · rintro (h | h)
        · exact Or.inl h
        · exact Or.inr (Or.inr h)
      · rintro (h | h | h)
        · exact Or.inl h
        · exact Or.inl (h ▸ hmem)
        · exact Or.inr h
    · simp only [hmem, if_false, List.mem_append, List.mem_singleton, List.map_cons,
        List.mem_cons]
      tauto

theorem keys_nodup_foldl_insert [DecidableEq β] (l : List (α × β))
    (acc : List (α × List β)) (hacc : (acc.map Prod.fst).Nodup) :
    (((l.foldl (fun a p => assocInsert a p.1 p.2) acc)).map Prod.fst).Nodup := by
  induction l generalizing acc with
  | nil => exact hacc
  | cons p rest ih =>
    rw [List.foldl_cons]
    refine ih _ ?_
    rw [keys_assocInsert]
    by_cases hmem : p.1 ∈ acc.map Prod.fst
    · simpa [hmem] using hacc
    · simp only [hmem, if_false]
      rw [← List.concat_eq_append]
      exact hacc.concat hmem

theorem foldl_insert_spec [DecidableEq β] (l : List (α × β)) (acc : List (α × List β))
    (k : α) (hacc : ∀ ws, assocFind acc k = some ws → ws.Nodup) :
    ∀ ws', assocFind (l.foldl (fun a p => assocInsert a p.1 p.2) acc) k = some ws' →
      ws'.Nodup ∧ ∀ x, (x ∈ ws' ↔ x ∈ (assocFind acc k).getD [] ∨ (k, x) ∈ l) := by
  induction l generalizing acc with
  | nil =>
    intro ws' h
    rw [List.foldl_nil] at h
    refine ⟨hacc ws' h, fun x => ?_⟩
    simp [h]
  | cons p rest ih =>
    intro ws' h
    rw [List.foldl_cons] at h
    have hacc' : ∀ ws, assocFind (assocInsert acc p.1 p.2) k = some ws → ws.Nodup := by
      intro ws hw
      rw [assocFind_assocInsert] at hw
      by_cases hk : k = p.1
      · rw [if_pos hk, Option.some.injEq] at hw
        subst hw
        have hbs : ((assocFind acc p.1).getD []).Nodup := by
          cases hfa : assocFind acc p.1 with
          | none => simp
          | some bs => simpa using hacc bs (by rw [hk, hfa])
        by_cases hb : p.2 ∈ (assocFind acc p.1).getD []
        · simpa [hb] using hbs
        · rw [if_neg hb, ← List.concat_eq_append]
          exact hbs.concat hb
      · rw [if_neg hk] at hw
        exact hacc ws hw
    obtain ⟨hnd, hm⟩ := ih (assocInsert acc p.1 p.2) hacc' ws' h
    refine ⟨hnd, fun x => ?_⟩
    rw [hm x, assocFind_assocInsert]
    by_cases hk : k = p.1
    · subst hk
      rw [if_pos rfl, Option.getD_some]
      simp only [List.mem_cons]
      have hp2 : ((p.1, x) = p) ↔ x = p.2 := by
        rw [Prod.ext_iff]
        simp
      rw [hp2]
      by_cases hb : p.2 ∈ (assocFind acc p.1).getD []
      · rw [if_pos hb]
        constructor
        · rintro (h1 | h1)
          · exact Or.inl h1
          · exact Or.inr (Or.inr h1)
        · rintro (h1 | h1 | h1)
          · exact Or.inl h1
          · exact Or.inl (h1 ▸ hb)
          · exact Or.inr h1
      · rw [if_neg hb]
        simp only [List.mem_append, List.mem_singleton]
        tauto
    · rw [if_neg hk]
      simp only [List.mem_cons]
      constructor
      · rintro (h1 | h1)
        · exact Or.inl h1
        · exact Or.inr (Or.inr h1)
      · rintro (h1 | h1 | h1)
        · exact Or.inl h1
        · exact absurd (congrArg Prod.fst h1) hk
        · exact Or.inr h1

end AssocLemmas

/-! ## Lines produced by `content.split('\n')` contain no newline -/

theorem splitNl_ne_nil (content : Str) : splitNl content ≠ [] := by
  cases content with
  | nil => simp [splitNl]
  | cons c rest =>
    by_cases hc : c = '\n'
    · simp [splitNl, hc]
    · simp only [splitNl, if_neg hc]
      cases hsp : splitNl rest <;> simp

theorem splitNl_no_newline (content : Str) :
    ∀ line ∈ splitNl content, '\n' ∉ line := by
  induction content with
  | nil =>
    intro line h
    simp [splitNl] at h
    subst h
    simp
  | cons c rest ih =>
    intro line h
    by_cases hc : c = '\n'
    · subst hc
      simp only [splitNl, if_true, List.mem_cons] at h
      rcases h with h | h
      · subst h
        simp
      · exact ih line h
    · simp only [splitNl, if_neg hc] at h
      generalize hsp : splitNl rest = sp at h
      cases sp with
      | nil => exact absurd hsp (splitNl_ne_nil rest)
      | cons l ls =>
        rcases List.mem_cons.mp h with rfl | h
        · intro hmem
          rcases List.mem_cons.mp hmem with h1 | h1
          · exact hc h1.symm
          · refine ih l ?_ h1
            rw [hsp]
            exact List.mem_cons_self l ls
        · refine ih line ?_
          rw [hsp]
          exact List.mem_cons_of_mem _ h

/-! ## Claim theorems -/

/-- C2: for an unreadable file the control and entity extractors do contribute
exactly zero records, but the metadata extractor returns the placeholder dict
`{"error": ...}`, which `main` appends to the document list and tallies into
`total_documents` and `by_type["unknown"]` — contradicting the claim that no
placeholder record for the unreadable file is appended or tallied. -/
theorem C2_unreadable_file_tallied :
    (∀ name tool, extract_controls_from_file name none tool = [])
      ∧ (∀ name tool table, extract_entities_from_file name none tool table = [])
      ∧ mainMetadata unreadableOnly [] [] = [MetaResult.err]
      ∧ (metadataSummary (mainMetadata unreadableOnly [] [])).total_documents = 1
      ∧ (metadataSummary (mainMetadata unreadableOnly [] [])).by_type
          = [(str "unknown", 1)] := by
  refine ⟨fun _ _ => rfl, fun _ _ _ => rfl, ?_, ?_, ?_⟩ <;> decide

/-- C3: the labeled-date pattern collects five dates and breaks out of its
inner loop, but the loop over the pattern tiers continues, and the bare-ISO
pattern appends a sixth date before its own break fires — `dates_found` holds
6 entries on a document with 7 distinct matchable date literals, violating
both the at-most-5 cap and the exactly-5 claim. -/
theorem C3_dates_cap_exceeded :
    (findIter matchDateB sevenDatesDoc).dedup.length = 7
      ∧ datesFound sevenDatesDoc
          = [str "2024-01-01", str "2024-01-02", str "2024-01-03", str "2024-01-04",
             str "2024-01-05", str "2024-01-06"]
      ∧ (datesFound sevenDatesDoc).length = 6 := by
  refine ⟨?_, ?_, ?_⟩ <;> decide

/-- C5: the underline-style pattern `^(.+)\n={3,}$` requires a literal
newline, but it is applied with `re.match` to the elements of
`content.split('\n')`, which never contain one — the pattern can never match,
and a document whose only heading is underline-style gets title `None`. -/
theorem C5_underline_title_dead :
    (∀ content line, line ∈ splitNl content → titleUnderlineMatch line = none)
      ∧ titleOf (splitNl underlineDoc) = none := by
  constructor
  · intro content line hmem
    have hnl : '\n' ∉ line := splitNl_no_newline content line hmem
    have hd : line.dropWhile (fun c => c ≠ '\n') = [] := by
      rw [List.dropWhile_eq_nil_iff]
      intro x hx
      rw [decide_eq_true_eq]
      exact fun h => hnl (h ▸ hx)
    unfold titleUnderlineMatch
    rw [List.span_eq_take_drop, hd]
    by_cases he : (line.takeWhile (fun c => c ≠ '\n')).isEmpty
    · simp [he]
    · simp [he]
  · decide

/-- Witness for the universally quantified half of `C5_underline_title_dead`. -/
theorem C5_underline_title_dead_witness :
    titleUnderlineMatch (str "x") = none :=
  C5_underline_title_dead.1 (str "x") (str "x") (by decide)

/-- C4 counterexample: in a run where pandoc and docling each contribute one
control reference, the serialized `by_tool` map has keys
`["pandoc", "docling"]` — dict insertion order, not sorted order. -/
theorem C4_by_tool_not_sorted :
    ¬ (((controlsSummary (mainControls c4PandocFiles [] c4DoclingFiles)).by_tool.map
        Prod.fst).Sorted (· ≤ ·)) := by
  decide

/-- Keys of `sorted(d.items())` are sorted. -/
theorem sortPairs_keys_sorted {β : Type} (l : List (Str × β)) :
    ((sortPairs l).map Prod.fst).Sorted (· ≤ ·) := by
  have h := List.sorted_insertionSort pairKeyLe l
  exact List.Pairwise.map Prod.fst (fun _ _ hab => hab) h

/-- `sorted(xs)` is sorted. -/
theorem sortStrs_sorted (l : List Str) : (sortStrs l).Sorted (· ≤ ·) :=
  List.sorted_insertionSort (· ≤ ·) l

/-- C4 as amended: of the serialized summary maps, `by_family` (controls) and
`by_type` (entities) are emitted with sorted keys — as are the sorted list
fields `controls_found_by_all_tools`, `control_families_covered` and
`all_control_families` — while `by_tool` and `by_document` (controls),
`by_type` (metadata) and `unique_values_by_type` (entities) are emitted in
first-insertion order, which need not be sorted. -/
theorem C4_amended_sorted_maps (ctrls : List ControlRef) (ents : List EntityRecord)
    (docs : List MetaResult) :
    ((controlsSummary ctrls).by_family.map Prod.fst).Sorted (· ≤ ·)
      ∧ ((entitiesSummary ents).by_type.map fun p => p.1).Sorted (· ≤ ·)
      ∧ (controlsSummary ctrls).controls_found_by_all_tools.Sorted (· ≤ ·)
      ∧ (controlsSummary ctrls).control_families_covered.Sorted (· ≤ ·)
      ∧ (metadataSummary docs).all_control_families.Sorted (· ≤ ·) := by
  refine ⟨sortPairs_keys_sorted _, ?_, sortStrs_sorted _, sortStrs_sorted _, sortStrs_sorted _⟩
  show (((sortPairs (entByType ents)).map (fun p =>
      (p.1, p.2, ((assocFind (entUniqueByType ents) p.1).getD []).length))).map
      (fun p => p.1)).Sorted (· ≤ ·)
  rw [List.map_map]
  exact List.Pairwise.map Prod.fst (fun _ _ hab => hab)
    (List.sorted_insertionSort pairKeyLe (entByType ents))

/-! ### C9: case sensitivity of the metadata family scan -/

theorem matchFamAt_eq_none {prevWord : Bool} {s : Str}
    (h : ∀ c ∈ s, isAsciiUpperCh c = false) : matchFamAt prevWord s = none := by
  unfold matchFamAt
  split
  · rename_i c1 c2 d1 rest
    have h1 : isAsciiUpperCh c1 = false := h c1 (by simp)
    simp [h1]
  · rfl

theorem scanFamsGo_eq_nil (fuel : Nat) :
    ∀ (s : Str) (prevWord : Bool), (∀ c ∈ s, isAsciiUpperCh c = false) →
      scanFamsGo fuel prevWord s = [] := by
  induction fuel with
  | zero => intro s pw _; rfl
  | succ fuel ih =>
    intro s pw h
    cases s with
    | nil => rfl
    | cons c rest =>
      simp only [scanFamsGo, matchFamAt_eq_none h]
      exact ih rest _ (fun c hc => h c (List.mem_cons_of_mem _ hc))

/-- C9: the metadata `CONTROL_PATTERN` is compiled without `re.IGNORECASE`,
so a document whose characters are all non-upper-case yields an empty
`control_families` list, while the case-insensitive control extractor does
emit a `ControlReference` for the same lower-case reference. -/
theorem C9_families_scan_case_sensitive :
    (∀ content, (∀ c ∈ content, isAsciiUpperCh c = false) →
        metaControlFamilies content = [])
      ∧ (extract_controls_from_file (str "doc.md") (some (str "see ac-2(1).b here"))
          (str "pandoc")).map (fun r => r.control_id) = [str "AC-2(1).b"] := by
  constructor
  · intro content h
    unfold metaControlFamilies scanFams
    rw [scanFamsGo_eq_nil content.length content false h]
    rfl
  · decide

/-- Witness: the lower-case document of the second conjunct also has an empty
`control_families` list. -/
theorem C9_families_scan_case_sensitive_witness :
    metaControlFamilies (str "see ac-2(1).b here") = [] :=
  C9_families_scan_case_sensitive.1 (str "see ac-2(1).b here") (by decide)

/-! ### C1: the consensus invariant -/

theorem byControl_find (ctrls : List ControlRef) (cid : Str) :
    assocFind (byControl ctrls) cid
      = if (ctrls.filter fun c => c.control_id = cid) = [] then none
        else some ((ctrls.filter fun c => c.control_id = cid).map
          fun c => c.conversion_tool) := by
  unfold byControl
  rw [assocFind_foldAppend, List.filter_map, List.map_map]
  simp [Function.comp_def]

theorem mem_byControl_iff (ctrls : List ControlRef) (cid : Str) (vs : List Str) :
    (cid, vs) ∈ byControl ctrls
      ↔ (ctrls.filter fun c => c.control_id = cid) ≠ []
          ∧ vs = (ctrls.filter fun c => c.control_id = cid).map
              fun c => c.conversion_tool := by
  constructor
  · intro hmem
    have hf := assocFind_of_mem (l := byControl ctrls)
      (keys_nodup_foldAppend _) hmem
    rw [byControl_find] at hf
    by_cases he : (ctrls.filter fun c => c.control_id = cid) = []
    · rw [if_pos he] at hf
      exact absurd hf (by simp)
    · rw [if_neg he] at hf
      exact ⟨he, (Option.some.injEq _ _ ▸ hf).symm⟩
  · rintro ⟨he, rfl⟩
    apply mem_of_assocFind (l := byControl ctrls)
    rw [byControl_find, if_neg he]

/-- C1: under the (always true for this pipeline) hypothesis that every
record's conversion tool is one of the three configured backends, a control
id is in `controls_found_by_all_tools` exactly when the set of distinct tool
labels on its occurrence records equals the full backend set. -/
theorem C1_consensus (ctrls : List ControlRef)
    (h : ∀ c ∈ ctrls, c.conversion_tool ∈ backends) (cid : Str) :
    cid ∈ (controlsSummary ctrls).controls_found_by_all_tools
      ↔ ∀ t : Str, (t ∈ (ctrls.filter fun c => c.control_id = cid).map
          fun c => c.conversion_tool) ↔ t ∈ backends := by
  have hmem1 : cid ∈ (controlsSummary ctrls).controls_found_by_all_tools
      ↔ cid ∈ controlsAllTools ctrls := by
    show cid ∈ sortStrs (controlsAllTools ctrls) ↔ _
    unfold sortStrs
    exact List.mem_insertionSort _
  set T : List Str :=
    (ctrls.filter fun c => c.control_id = cid).map fun c => c.conversion_tool with hT
  have hsub : ∀ t ∈ T, t ∈ backends := by
    intro t ht
    rw [hT, List.mem_map] at ht
    obtain ⟨c, hc, rfl⟩ := ht
    exact h c (List.mem_of_mem_filter hc)
  have hmem2 : cid ∈ controlsAllTools ctrls ↔ (T ≠ [] ∧ T.dedup.length = 3) := by
    unfold controlsAllTools
    rw [List.mem_map]
    constructor
    · rintro ⟨p, hp, rfl⟩
      have hp2 := List.of_mem_filter hp
      have hp3 := List.mem_of_mem_filter hp
      obtain ⟨hne, hveq⟩ := (mem_byControl_iff ctrls p.1 p.2).mp hp3
      refine ⟨by simpa [hT, hveq] using hne, ?_⟩
      · rw [hT, ← hveq]
        simpa using hp2
    · rintro ⟨hne, hd⟩
      refine ⟨(cid, T), ?_, rfl⟩
      rw [List.mem_filter]
      constructor
      · exact (mem_byControl_iff ctrls cid T).mpr ⟨by simpa [hT] using hne, rfl⟩
      · simpa using hd
  rw [hmem1, hmem2]
  have hbn : backends.toFinset.card = 3 := by decide
  constructor
  · rintro ⟨hne, hd⟩ t
    have hcard : T.toFinset.card = 3 := by
      rw [List.card_toFinset, hd]
    have hsubf : T.toFinset ⊆ backends.toFinset := by
      intro x hx
      rw [List.mem_toFinset] at hx ⊢
      exact hsub x hx
    have heq : backends.toFinset = T.toFinset :=
      (Finset.eq_of_subset_of_card_le hsubf (by rw [hbn, hcard])).symm
    constructor
    · intro ht
      exact hsub t ht
    · intro ht
      have : t ∈ T.toFinset := heq ▸ (List.mem_toFinset.mpr ht)
      exact List.mem_toFinset.mp this
  · intro hiff
    have hp : (str "pandoc") ∈ T := (hiff _).mpr (by decide)
    refine ⟨fun hnil => by simp [hnil] at hp, ?_⟩
    have heq : T.toFinset = backends.toFinset := by
      ext x
      rw [List.mem_toFinset, List.mem_toFinset]
      exact hiff x
    rw [← List.card_toFinset, heq, hbn]

/-- Witness for `C1_consensus` at the concrete corpus `c1Corpus`. -/
theorem C1_consensus_witness :
    (∀ c ∈ c1Corpus, c.conversion_tool ∈ backends)
      ∧ ((str "AC-1") ∈ (controlsSummary c1Corpus).controls_found_by_all_tools
          ↔ ∀ t : Str, (t ∈ (c1Corpus.filter fun c => c.control_id = str "AC-1").map
              fun c => c.conversion_tool) ↔ t ∈ backends) :=
  ⟨by decide, C1_consensus c1Corpus (by decide) (str "AC-1")⟩

/-! ### Character-class helper lemmas -/

theorem toNat_ofNat_ascii {n : Nat} (h : n ≤ 300) : (Char.ofNat n).toNat = n := by
  have hv : n.isValidChar := Or.inl (by omega)
  rw [Char.ofNat, dif_pos hv]
  rfl

theorem isUpper_bounds {c : Char} (h : isAsciiUpperCh c = true) :
    65 ≤ c.toNat ∧ c.toNat ≤ 90 := by
  simpa [isAsciiUpperCh] using h

theorem isLower_bounds {c : Char} (h : isAsciiLowerCh c = true) :
    97 ≤ c.toNat ∧ c.toNat ≤ 122 := by
  simpa [isAsciiLowerCh] using h

theorem lower_eq_false_of_upper {c : Char} (h : isAsciiUpperCh c = true) :
    isAsciiLowerCh c = false := by
  have hb := isUpper_bounds h
  simp only [isAsciiLowerCh, Bool.and_eq_false_iff, decide_eq_false_iff_not]
  omega

theorem upper_eq_false_of_lower {c : Char} (h : isAsciiLowerCh c = true) :
    isAsciiUpperCh c = false := by
  have hb := isLower_bounds h
  simp only [isAsciiUpperCh, Bool.and_eq_false_iff, decide_eq_false_iff_not]
  omega

theorem asciiUpperCh_eq_self {c : Char} (h : isAsciiUpperCh c = true) :
    asciiUpperCh c = c := by
  unfold asciiUpperCh
  rw [lower_eq_false_of_upper h]
  simp

theorem asciiLowerCh_eq_self {c : Char} (h : isAsciiLowerCh c = true) :
    asciiLowerCh c = c := by
  unfold asciiLowerCh
  rw [upper_eq_false_of_lower h]
  simp

theorem asciiUpperCh_isUpper {c : Char} (h : isAsciiLetterCh c = true) :
    isAsciiUpperCh (asciiUpperCh c) = true := by
  rcases Bool.or_eq_true .. |>.mp (by simpa [isAsciiLetterCh] using h) with hu | hl
  · rw [asciiUpperCh_eq_self hu]
    exact hu
  · have hb := isLower_bounds hl
    unfold asciiUpperCh
    rw [hl]
    simp only [if_true]
    simp only [isAsciiUpperCh, Bool.and_eq_true, decide_eq_true_eq]
    rw [toNat_ofNat_ascii (by omega)]
    omega

theorem asciiLowerCh_isLower {c : Char} (h : isAsciiLetterCh c = true) :
    isAsciiLowerCh (asciiLowerCh c) = true := by
  rcases Bool.or_eq_true .. |>.mp (by simpa [isAsciiLetterCh] using h) with hu | hl
  · have hb := isUpper_bounds hu
    unfold asciiLowerCh
    rw [hu]
    simp only [if_true]
    simp only [isAsciiLowerCh, Bool.and_eq_true, decide_eq_true_eq]
    rw [toNat_ofNat_ascii (by omega)]
    omega
  · rw [asciiLowerCh_eq_self hl]
    exact hl

/-! ### C8: structural invariant of every emitted ControlReference -/

theorem matchControlAt_sound {prevWord : Bool} {s : Str} {m : CtrlMatch}
    (h : matchControlAt prevWord s = some m) :
    isAsciiLetterCh m.fam1 = true ∧ isAsciiLetterCh m.fam2 = true
      ∧ (∀ p, m.part = some p → isAsciiLetterCh p = true)
      ∧ (m.number.length = 1 ∨ m.number.length = 2)
      ∧ (∀ c ∈ m.number, isAsciiDigitCh c = true) := by
  unfold matchControlAt at h
  split at h
  case _ c1 c2 d1 rest =>
    by_cases hg : (prevWord
        || !(isAsciiLetterCh c1 && isAsciiLetterCh c2 && isAsciiDigitCh d1)) = true
    · rw [if_pos hg] at h
      exact absurd h (by simp)
    · rw [if_neg hg] at h
      rw [Bool.or_eq_true, not_or, Bool.not_eq_true'] at hg
      obtain ⟨hpw, hA⟩ := hg
      have hand := eq_true_of_ne_false hA
      rw [Bool.and_eq_true, Bool.and_eq_true] at hand
      obtain ⟨⟨h1, h2⟩, h3⟩ := hand
      simp only [Option.some.injEq] at h
      subst h
      refine ⟨h1, h2, ?_, ?_, ?_⟩
      · intro p hp
        simp only at hp
        split at hp
        · split_ifs at hp with hl
          cases hp
          exact hl
        · cases hp
      · simp only
        split
        · rename_i d2 r2
          split_ifs with hd2 <;> simp
        · simp
      · intro c hc
        simp only at hc
        split at hc
        · rename_i d2 r2
          split_ifs at hc with hd2
          · rcases List.mem_cons.mp hc with rfl | hc2
            · exact h3
            · rcases List.mem_cons.mp hc2 with rfl | hc3
              · exact hd2
              · simp at hc3
          · rcases List.mem_cons.mp hc with rfl | hc2
            · exact h3
            · simp at hc2
        · rcases List.mem_cons.mp hc with rfl | hc2
          · exact h3
          · simp at hc2
  case _ => exact absurd h (by simp)

theorem scanCtrlLine_mem {fuel : Nat} :
    ∀ {prevWord : Bool} {pos : Nat} {s : Str} {q : Nat × CtrlMatch},
      q ∈ scanCtrlLine fuel prevWord pos s →
        ∃ pw' s', matchControlAt pw' s' = some q.2 := by
  induction fuel with
  | zero =>
    intro _ _ _ _ h
    simp [scanCtrlLine] at h
  | succ fuel ih =>
    intro pw pos s q h
    cases s with
    | nil => simp [scanCtrlLine] at h
    | cons c rest =>
      rw [scanCtrlLine] at h
      cases hm : matchControlAt pw (c :: rest) with
      | some m =>
        rw [hm] at h
        rcases List.mem_cons.mp h with rfl | h2
        · exact ⟨pw, c :: rest, by rw [hm]⟩
        · exact ih h2
      | none =>
        rw [hm] at h
        exact ih h

/-- C8: every record emitted by the control extractor satisfies the
structural invariant: `has_enhancement` mirrors `enhancement_number`,
`base_control = family ++ "-" ++ number` for a 1–2 digit number,
`control_id = base_control ++ "(" ++ enhancement ++ ")"` exactly when the
enhancement is present, followed by `"." ++ part` exactly when a part was
matched, with the family upper-cased and the part lower-cased. -/
theorem C8_record_invariant (docName tool : Str) (content : Str) (r : ControlRef)
    (h : r ∈ extract_controls_from_file docName (some content) tool) :
    (r.has_enhancement = true ↔ r.enhancement_number ≠ none)
      ∧ (∃ num : Str, (∀ c ∈ num, isAsciiDigitCh c = true)
          ∧ (num.length = 1 ∨ num.length = 2)
          ∧ r.base_control = r.control_family ++ '-' :: num)
      ∧ (∃ part : Option Char,
          r.control_id = r.base_control
              ++ (match r.enhancement_number with
                  | some e => '(' :: (e ++ [')']) | none => [])
              ++ (match part with | some p => ['.', p] | none => [])
            ∧ ∀ p, part = some p → isAsciiLowerCh p = true)
      ∧ (∀ c ∈ r.control_family, isAsciiUpperCh c = true) := by
  unfold extract_controls_from_file at h
  rw [List.mem_flatMap] at h
  obtain ⟨p, hp, hr⟩ := h
  rw [List.mem_map] at hr
  obtain ⟨q, hq, rfl⟩ := hr
  obtain ⟨pw, s', hm⟩ := scanCtrlLine_mem hq
  obtain ⟨hf1, hf2, hpart, hlen, hdig⟩ := matchControlAt_sound hm
  obtain ⟨qpos, f1, f2, num, enh, prt⟩ := q
  simp only at hf1 hf2 hpart hlen hdig
  refine ⟨?_, ⟨num, hdig, hlen, rfl⟩, ⟨prt.map asciiLowerCh, ?_, ?_⟩, ?_⟩
  · show enh.isSome = true ↔ enh ≠ none
    exact Option.isSome_iff_ne_none
  · cases prt <;> rfl
  · intro p0 hp2
    cases hq2 : prt with
    | none =>
      rw [hq2] at hp2
      exact Option.noConfusion hp2
    | some p1 =>
      rw [hq2] at hp2
      injection hp2 with hp3
      subst hp3
      exact asciiLowerCh_isLower (hpart p1 hq2)
  · intro c hc
    rcases List.mem_cons.mp hc with rfl | hc2
    · exact asciiUpperCh_isUpper hf1
    · rcases List.mem_cons.mp hc2 with rfl | hc3
      · exact asciiUpperCh_isUpper hf2
      · simp at hc3

/-- Witness for `C8_record_invariant` at a concrete extraction. -/
theorem C8_record_invariant_witness :
    ∃ r, r ∈ extract_controls_from_file (str "d.md") (some (str "AC-2(1).a")) (str "pandoc")
      ∧ ((r.has_enhancement = true ↔ r.enhancement_number ≠ none)
        ∧ (∃ num : Str, (∀ c ∈ num, isAsciiDigitCh c = true)
            ∧ (num.length = 1 ∨ num.length = 2)
            ∧ r.base_control = r.control_family ++ '-' :: num)
        ∧ (∃ part : Option Char,
            r.control_id = r.base_control
                ++ (match r.enhancement_number with
                    | some e => '(' :: (e ++ [')']) | none => [])
                ++ (match part with | some p => ['.', p] | none => [])
              ∧ ∀ p, part = some p → isAsciiLowerCh p = true)
        ∧ (∀ c ∈ r.control_family, isAsciiUpperCh c = true)) := by
  refine ⟨_, List.mem_singleton.mpr rfl, ?_⟩
  exact C8_record_invariant (str "d.md") (str "pandoc") (str "AC-2(1).a") _
    (by decide)


/-! ### C7: one record per distinct (entity type, normalized value) -/

theorem mem_keys_foldl_append {α β : Type} [DecidableEq α] (l : List (α × β))
    (acc : List (α × List β)) (k : α) :
    k ∈ ((l.foldl (fun a p => assocAppend a p.1 p.2) acc).map Prod.fst)
      ↔ k ∈ acc.map Prod.fst ∨ k ∈ l.map Prod.fst := by
  induction l generalizing acc with
  | nil => simp
  | cons p rest ih =>
    rw [List.foldl_cons, ih, keys_assocAppend]
    by_cases hmem : p.1 ∈ acc.map Prod.fst
    · simp only [hmem, if_true, List.map_cons, List.mem_cons]
      constructor
      · rintro (h | h)
        · exact Or.inl h
        · exact Or.inr (Or.inr h)
      · rintro (h | h | h)
        · exact Or.inl h
        · exact Or.inl (h ▸ hmem)
        · exact Or.inr h
    · simp only [hmem, if_false, List.mem_append, List.mem_singleton, List.map_cons,
        List.mem_cons]
      tauto

theorem filter_key_length_of_nodup {α β : Type} [DecidableEq α] {l : List (α × β)}
    (h : (l.map Prod.fst).Nodup) (k : α) :
    (l.filter fun p => p.1 = k).length = if k ∈ l.map Prod.fst then 1 else 0 := by
  induction l with
  | nil => simp
  | cons p rest ih =>
    simp only [List.map_cons, List.nodup_cons] at h
    rw [List.filter_cons]
    by_cases hp : p.1 = k
    · subst hp
      rw [if_pos (by simp), List.length_cons, ih h.2, List.map_cons]
      rw [if_pos (List.mem_cons_self _ _), if_neg h.1]
    · have hk : (k ∈ p.1 :: rest.map Prod.fst) ↔ k ∈ rest.map Prod.fst := by
        simp only [List.mem_cons]
        exact ⟨fun hh => hh.resolve_left (fun he => hp he.symm), Or.inr⟩
      rw [if_neg (by simpa using hp), ih h.2, List.map_cons, if_congr hk rfl rfl]

theorem extract_entities_eq (docName : Str) (content : Str) (tool : Str)
    (table : EntityTable) :
    extract_entities_from_file docName (some content) tool table
      = table.flatMap fun p =>
          (processEntityType content p.1 p.2).map (mkEntityRecord docName tool p.1) := rfl

theorem length_filter_pair {β : Type} (l : List (Str × β)) (t v : Str)
    (mk : Str × β → EntityRecord)
    (hmk : ∀ w, (mk w).entity_type = t ∧ (mk w).value = w.1) :
    ((l.map mk).filter (fun r => r.entity_type = t ∧ r.value = v)).length
      = (l.filter fun w => w.1 = v).length := by
  induction l with
  | nil => rfl
  | cons w rest ih =>
    rw [List.map_cons, List.filter_cons, List.filter_cons]
    obtain ⟨h1, h2⟩ := hmk w
    by_cases hv : w.1 = v
    · rw [if_pos (by simp [h1, h2, hv]), if_pos (by simp [hv])]
      rw [List.length_cons, List.length_cons, ih]
    · rw [if_neg (by simp [h1, h2, hv]), if_neg (by simp [hv])]
      exact ih

theorem mem_extract_entities_type {docName content tool : Str} {tbl : EntityTable}
    {r : EntityRecord}
    (h : r ∈ extract_entities_from_file docName (some content) tool tbl) :
    r.entity_type ∈ tbl.map Prod.fst := by
  rw [extract_entities_eq, List.mem_flatMap] at h
  obtain ⟨p, hp, hr⟩ := h
  rw [List.mem_map] at hr
  obtain ⟨q, _, rfl⟩ := hr
  exact List.mem_map.mpr ⟨p, hp, rfl⟩

/-- The contexts accumulated for a value `v` in one category are exactly the
contexts of the raw matches normalizing to `v`, in order. -/
theorem processEntityType_lookup (content t : Str) (groups : List (List RawMatch))
    {v : Str} {ctxs : List Str}
    (h : (v, ctxs) ∈ processEntityType content t groups) :
    ctxs = ((groups.flatten.filter fun m => normalizeValue t m.value = v).map
      (entityContext content)) := by
  unfold processEntityType at h
  rw [mem_foldAppend_iff] at h
  rw [h.2, List.filter_map, List.map_map]
  simp [Function.comp_def]

theorem processEntityType_keys (content t : Str) (groups : List (List RawMatch))
    (v : Str) :
    v ∈ (processEntityType content t groups).map Prod.fst
      ↔ ∃ m ∈ groups.flatten, normalizeValue t m.value = v := by
  unfold processEntityType foldAppend
  rw [mem_keys_foldl_append]
  simp only [List.map_nil, List.not_mem_nil, false_or, List.map_map, List.mem_map,
    Function.comp_def, List.mem_flatten]

/-- C7: for every document, backend and entity-pattern table (with the dict's
distinct keys) and every pair `(t, v)`: exactly one emitted record carries the
pair when some raw match of category `t` normalizes to `v` (none otherwise);
that record's `occurrences` equals the number of raw matches of that category
— and only that category — normalizing to `v`, and its `sample_contexts`
holds `min(occurrences, 3)` contexts.  Normalization precedes grouping. -/
theorem C7_entity_grouping (docName : Str) (content : Str) (tool : Str)
    (table : EntityTable) (hkeys : (table.map Prod.fst).Nodup) (t : Str) (v : Str) :
    ((extract_entities_from_file docName (some content) tool table).filter
        (fun r => r.entity_type = t ∧ r.value = v)).length
      = (if (((table.filter fun p => p.1 = t).flatMap fun p => p.2.flatten).filter
            (fun m => normalizeValue t m.value = v)).length = 0 then 0 else 1)
    ∧ ∀ r ∈ extract_entities_from_file docName (some content) tool table,
        r.entity_type = t → r.value = v →
          r.occurrences = (((table.filter fun p => p.1 = t).flatMap fun p =>
              p.2.flatten).filter (fun m => normalizeValue t m.value = v)).length
          ∧ r.sample_contexts.length = min r.occurrences 3 := by
  induction table with
  | nil =>
    refine ⟨by simp [extract_entities_eq], ?_⟩
    intro r hr
    simp [extract_entities_eq] at hr
  | cons q rest ih =>
    simp only [List.map_cons, List.nodup_cons] at hkeys
    obtain ⟨hknotin, hknd⟩ := hkeys
    obtain ⟨ihc, ihm⟩ := ih hknd
    have hout : extract_entities_from_file docName (some content) tool (q :: rest)
        = (processEntityType content q.1 q.2).map (mkEntityRecord docName tool q.1)
          ++ extract_entities_from_file docName (some content) tool rest := by
      rw [extract_entities_eq, List.flatMap_cons, extract_entities_eq]
    by_cases hq : q.1 = t
    · subst hq
      have hrestf : (rest.filter fun p => p.1 = q.1) = [] := by
        rw [List.filter_eq_nil_iff]
        intro p hp
        simp only [decide_eq_true_eq]
        intro hpe
        exact hknotin (hpe ▸ List.mem_map.mpr ⟨p, hp, rfl⟩)
      have hraw : ((((q :: rest).filter fun p => p.1 = q.1).flatMap fun p => p.2.flatten)
          |>.filter (fun m => normalizeValue q.1 m.value = v))
            = q.2.flatten.filter (fun m => normalizeValue q.1 m.value = v) := by
        rw [List.filter_cons, if_pos (by simp), hrestf]
        simp
      have hrest0 : ∀ r ∈ extract_entities_from_file docName (some content) tool rest,
          ¬ (r.entity_type = q.1) := by
        intro r hr hre
        exact hknotin (hre ▸ mem_extract_entities_type hr)
      constructor
      · rw [hout, List.filter_append, List.length_append, hraw]
        have hz : ((extract_entities_from_file docName (some content) tool rest).filter
            (fun r => r.entity_type = q.1 ∧ r.value = v)).length = 0 := by
          rw [List.length_eq_zero, List.filter_eq_nil_iff]
          intro r hr
          simp only [decide_eq_true_eq, not_and]
          intro hre
          exact absurd hre (hrest0 r hr)
        rw [hz, Nat.add_zero]
        rw [length_filter_pair (processEntityType content q.1 q.2) q.1 v
          (mkEntityRecord docName tool q.1) (fun w => ⟨rfl, rfl⟩)]
        have hnd : ((processEntityType content q.1 q.2).map Prod.fst).Nodup :=
          keys_nodup_foldAppend _
        rw [filter_key_length_of_nodup hnd v]
        by_cases h0 : ∃ m ∈ q.2.flatten, normalizeValue q.1 m.value = v
        · rw [if_pos ((processEntityType_keys content q.1 q.2 v).mpr h0)]
          have hne : ¬ ((q.2.flatten.filter fun m =>
              normalizeValue q.1 m.value = v).length = 0) := by
            rw [List.length_eq_zero, List.filter_eq_nil_iff]
            intro hall
            obtain ⟨m, hm, hmv⟩ := h0
            exact absurd hmv (by simpa using hall m hm)
          rw [if_neg hne]
        · rw [if_neg (fun hv => h0 ((processEntityType_keys content q.1 q.2 v).mp hv))]
          have he : (q.2.flatten.filter fun m =>
              normalizeValue q.1 m.value = v).length = 0 := by
            rw [List.length_eq_zero, List.filter_eq_nil_iff]
            intro m hm
            simp only [decide_eq_true_eq]
            exact fun hmv => h0 ⟨m, hm, hmv⟩
          rw [if_pos he]
      · intro r hr hrt hrv
        rw [hout, List.mem_append] at hr
        rcases hr with hr | hr
        · rw [List.mem_map] at hr
          obtain ⟨w, hw, rfl⟩ := hr
          obtain ⟨k, ctxs⟩ := w
          have hkv : k = v := hrv
          subst hkv
          have hctx := processEntityType_lookup content q.1 q.2 hw
          rw [hraw]
          constructor
          · show ctxs.length = _
            rw [hctx, List.length_map]
          · show (ctxs.take 3).length = min ctxs.length 3
            rw [List.length_take, Nat.min_comm]
        · exact absurd hrt (hrest0 r hr)
    · have hrawr : (((q :: rest).filter fun p => p.1 = t).flatMap fun p => p.2.flatten)
          = ((rest.filter fun p => p.1 = t).flatMap fun p => p.2.flatten) := by
        rw [List.filter_cons, if_neg (by simpa using hq)]
      constructor
      · rw [hout, List.filter_append, List.length_append, hrawr]
        have hz : (((processEntityType content q.1 q.2).map
            (mkEntityRecord docName tool q.1)).filter
              (fun r => r.entity_type = t ∧ r.value = v)).length = 0 := by
          rw [List.length_eq_zero, List.filter_eq_nil_iff]
          intro r hr
          rw [List.mem_map] at hr
          obtain ⟨w, _, rfl⟩ := hr
          simp [mkEntityRecord, hq]
        rw [hz, Nat.zero_add]
        exact ihc
      · intro r hr hrt hrv
        rw [hout, List.mem_append] at hr
        rcases hr with hr | hr
        · rw [List.mem_map] at hr
          obtain ⟨w, _, rfl⟩ := hr
          exact absurd hrt hq
        · rw [hrawr]
          exact ihm r hr hrt hrv

/-- Witness for `C7_entity_grouping` at a concrete document and table. -/
theorem C7_entity_grouping_witness :
    ((c7Table.map Prod.fst).Nodup)
      ∧ (((extract_entities_from_file (str "d.md") (some c7Content) (str "pandoc")
              c7Table).filter
            (fun r => r.entity_type = str "role" ∧ r.value = str "CISO")).length
          = (if (((c7Table.filter fun p => p.1 = str "role").flatMap fun p =>
                p.2.flatten).filter
                  (fun m => normalizeValue (str "role") m.value = str "CISO")).length = 0
              then 0 else 1)
        ∧ ∀ r ∈ extract_entities_from_file (str "d.md") (some c7Content) (str "pandoc")
            c7Table,
            r.entity_type = str "role" → r.value = str "CISO" →
              r.occurrences = (((c7Table.filter fun p => p.1 = str "role").flatMap fun p =>
                  p.2.flatten).filter
                    (fun m => normalizeValue (str "role") m.value = str "CISO")).length
              ∧ r.sample_contexts.length = min r.occurrences 3) :=
  ⟨by decide, C7_entity_grouping (str "d.md") c7Content (str "pandoc") c7Table (by decide)
    (str "role") (str "CISO")⟩

/-! ### C10: unique_values_by_type holds the 20 smallest distinct values -/

/-- C10: every entry `(t, vs)` of `unique_values_by_type` lists the
lexicographically smallest `min(total, 20)` of the distinct normalized values
of type `t`, in sorted order, while the `unique_values` count in `by_type`
reflects the true total number of distinct values. -/
theorem C10_unique_values_capped (ents : List EntityRecord) (t : Str) (vs : List Str)
    (h : (t, vs) ∈ (entitiesSummary ents).unique_values_by_type) :
    vs.Sorted (· ≤ ·)
      ∧ vs.length = min ((ents.filter fun e => e.entity_type = t).map
          (fun e => e.value)).dedup.length 20
      ∧ (∀ v ∈ vs, v ∈ (ents.filter fun e => e.entity_type = t).map fun e => e.value)
      ∧ (∀ v, (v ∈ (ents.filter fun e => e.entity_type = t).map fun e => e.value) →
          v ∉ vs → ∀ u ∈ vs, u ≤ v)
      ∧ (∀ occ uniq, (t, occ, uniq) ∈ (entitiesSummary ents).by_type →
          uniq = ((ents.filter fun e => e.entity_type = t).map
            (fun e => e.value)).dedup.length) := by
  have hmap : (entitiesSummary ents).unique_values_by_type
      = (entUniqueByType ents).map (fun p => (p.1, (sortStrs p.2).take 20)) := rfl
  rw [hmap, List.mem_map] at h
  obtain ⟨p, hp, hpe⟩ := h
  obtain ⟨ht, hvs⟩ : t = p.1 ∧ vs = (sortStrs p.2).take 20 := by
    constructor
    · exact (congrArg Prod.fst hpe).symm
    · exact (congrArg Prod.snd hpe).symm
  subst ht
  obtain ⟨k, W⟩ := p
  simp only at hvs hp
  have hknd : ((entUniqueByType ents).map Prod.fst).Nodup :=
    keys_nodup_foldl_insert _ [] (by simp)
  have hfind : assocFind (entUniqueByType ents) k = some W := assocFind_of_mem hknd hp
  have hfind' : assocFind ((ents.map fun e => (e.entity_type, e.value)).foldl
      (fun a p => assocInsert a p.1 p.2) []) k = some W := hfind
  obtain ⟨hWnd, hWmem⟩ := foldl_insert_spec
    (ents.map fun e => (e.entity_type, e.value)) [] k (fun ws hw => by cases hw) W hfind'
  have hWV : ∀ x, x ∈ W ↔ x ∈ (ents.filter fun e => e.entity_type = k).map
      fun e => e.value := by
    intro x
    rw [hWmem x]
    simp only [assocFind, Option.getD_none, List.not_mem_nil, false_or, List.mem_map,
      List.mem_filter]
    constructor
    · rintro ⟨e, he, hee⟩
      rw [Prod.ext_iff] at hee
      exact ⟨e, ⟨he, by simpa using hee.1⟩, by simpa using hee.2⟩
    · rintro ⟨e, ⟨he, het⟩, hev⟩
      refine ⟨e, he, ?_⟩
      rw [Prod.ext_iff]
      exact ⟨by simpa using het, hev⟩
  have hlen : W.length = ((ents.filter fun e => e.entity_type = k).map
      fun e => e.value).dedup.length := by
    rw [← List.card_toFinset]
    rw [← List.toFinset_card_of_nodup hWnd]
    congr 1
    ext x
    rw [List.mem_toFinset, List.mem_toFinset]
    exact hWV x
  have hsortlen : (sortStrs W).length = W.length := List.length_insertionSort _ _
  have hmemsort : ∀ x, x ∈ sortStrs W ↔ x ∈ W := fun x => List.mem_insertionSort _
  refine ⟨?_, ?_, ?_, ?_, ?_⟩
  · rw [hvs]
    exact List.Pairwise.sublist (List.take_sublist _ _) (sortStrs_sorted W)
  · rw [hvs, List.length_take, hsortlen, hlen, Nat.min_comm]
  · intro v hv
    rw [hvs] at hv
    have : v ∈ sortStrs W := (List.take_sublist _ _).subset hv
    rw [hmemsort, hWV] at this
    exact this
  · intro v hvV hvnot u hu
    have hvW : v ∈ sortStrs W := by
      rw [hmemsort, hWV]
      exact hvV
    have hsplit : sortStrs W = vs ++ (sortStrs W).drop 20 := by
      rw [hvs, List.take_append_drop]
    have hvdrop : v ∈ (sortStrs W).drop 20 := by
      rw [hsplit, List.mem_append] at hvW
      exact hvW.resolve_left hvnot
    have hsorted := sortStrs_sorted W
    rw [hsplit] at hsorted
    exact (List.pairwise_append.mp hsorted).2.2 u hu v hvdrop
  · intro occ uniq hbt
    have hbt' : (k, occ, uniq) ∈ (sortPairs (entByType ents)).map
        (fun p => (p.1, p.2, ((assocFind (entUniqueByType ents) p.1).getD []).length)) :=
      hbt
    rw [List.mem_map] at hbt'
    obtain ⟨p', _, hpe'⟩ := hbt'
    have hk : p'.1 = k := congrArg Prod.fst hpe'
    have hu : uniq = ((assocFind (entUniqueByType ents) p'.1).getD []).length := by
      have := congrArg (fun q => q.2.2) hpe'
      simpa using this.symm
    rw [hu, hk, hfind, Option.getD_some, hlen]

/-- Witness for `C10_unique_values_capped` at a concrete record list. -/
theorem C10_unique_values_capped_witness :
    ((str "role", [str "AO", str "CISO"])
        ∈ (entitiesSummary c10Ents).unique_values_by_type)
      ∧ ([str "AO", str "CISO"] : List Str).Sorted (· ≤ ·)
      ∧ ([str "AO", str "CISO"] : List Str).length
          = min ((c10Ents.filter fun e => e.entity_type = str "role").map
              (fun e => e.value)).dedup.length 20 :=
  ⟨by decide,
   (C10_unique_values_capped c10Ents (str "role") [str "AO", str "CISO"] (by decide)).1,
   (C10_unique_values_capped c10Ents (str "role") [str "AO", str "CISO"] (by decide)).2.1⟩

/-! ### C6: exact round trip of canonical control identifiers -/

theorem letter_of_upper {c : Char} (h : isAsciiUpperCh c = true) :
    isAsciiLetterCh c = true := by
  simp [isAsciiLetterCh, h]

theorem letter_of_lower {c : Char} (h : isAsciiLowerCh c = true) :
    isAsciiLetterCh c = true := by
  simp [isAsciiLetterCh, h]

theorem canonical_length (f1 f2 : Char) (num : Str) (enh : Option Str)
    (part : Option Char) :
    (canonicalControl f1 f2 num enh part).length
      = ctrlMatchLen ⟨f1, f2, num, enh, part⟩ := by
  unfold canonicalControl ctrlMatchLen
  cases enh <;> cases part <;> simp [List.length_append] <;> omega

theorem scanCtrlLine_nil (fuel : Nat) (pw : Bool) (pos : Nat) :
    scanCtrlLine fuel pw pos [] = [] := by
  cases fuel <;> rfl

theorem dropWhile_eq_self_of (p : Char → Bool) (l : Str) (h : ∀ c ∈ l, p c = false) :
    l.dropWhile p = l := by
  cases l with
  | nil => rfl
  | cons c rest =>
    rw [List.dropWhile_cons, if_neg (by simp [h c (List.mem_cons_self c rest)])]

theorem trimChars_eq_self {l : Str} (h : ∀ c ∈ l, isSpaceCh c = false) :
    trimChars l = l := by
  unfold trimChars
  rw [dropWhile_eq_self_of _ _ h,
    dropWhile_eq_self_of _ _ (fun c hc => h c (List.mem_reverse.mp hc)),
    List.reverse_reverse]

theorem isSpaceCh_eq_false_of_bounds {c : Char} (h1 : 40 ≤ c.toNat) :
    isSpaceCh c = false := by
  have hdq : ∀ d : Char, d.toNat < 40 → ¬ c = d := by
    intro d hd he
    rw [he] at h1
    omega
  unfold isSpaceCh
  rw [decide_eq_false (hdq ' ' (by decide)), decide_eq_false (hdq '\t' (by decide)),
    decide_eq_false (hdq '\n' (by decide)), decide_eq_false (hdq '\r' (by decide)),
    decide_eq_false (hdq '\x0b' (by decide)), decide_eq_false (hdq '\x0c' (by decide))]
  rfl

theorem ne_newline_of_bounds {c : Char} (h1 : 40 ≤ c.toNat) : ¬ c = '\n' := by
  intro he
  rw [he] at h1
  exact absurd h1 (by decide)

theorem splitNl_single : ∀ l : Str, (∀ c ∈ l, ¬ c = '\n') → splitNl l = [l]
  | [], _ => rfl
  | c :: rest, h => by
    simp only [splitNl, if_neg (h c (List.mem_cons_self c rest))]
    rw [splitNl_single rest (fun c hc => h c (List.mem_cons_of_mem _ hc))]

theorem takeWhile_append_of (p : Char → Bool) : ∀ (l r : Str), (∀ c ∈ l, p c = true) →
    (match r with | [] => True | c :: _ => p c = false) → (l ++ r).takeWhile p = l := by
  intro l
  induction l with
  | nil =>
    intro r _ hr
    cases r with
    | nil => rfl
    | cons c cs =>
      simp only [List.nil_append, List.takeWhile_cons]
      rw [hr]
      rfl
  | cons c rest ih =>
    intro r hl hr
    rw [List.cons_append, List.takeWhile_cons, hl c (List.mem_cons_self c rest)]
    simp only [if_true]
    rw [ih r (fun d hd => hl d (List.mem_cons_of_mem _ hd)) hr]

theorem dropWhile_append_of (p : Char → Bool) : ∀ (l r : Str), (∀ c ∈ l, p c = true) →
    (match r with | [] => True | c :: _ => p c = false) → (l ++ r).dropWhile p = r := by
  intro l
  induction l with
  | nil =>
    intro r _ hr
    cases r with
    | nil => rfl
    | cons c cs =>
      simp only [List.nil_append, List.dropWhile_cons]
      rw [hr]
      rfl
  | cons c rest ih =>
    intro r hl hr
    rw [List.cons_append, List.dropWhile_cons, hl c (List.mem_cons_self c rest)]
    simp only [if_true]
    exact ih r (fun d hd => hl d (List.mem_cons_of_mem _ hd)) hr

theorem canonical_char_bound {f1 f2 : Char} {num : Str} {enh : Option Str}
    {part : Option Char}
    (hf1 : isAsciiUpperCh f1 = true) (hf2 : isAsciiUpperCh f2 = true)
    (hnum : ∀ c ∈ num, isAsciiDigitCh c = true)
    (henh : ∀ e, enh = some e → ∀ c ∈ e, isAsciiDigitCh c = true)
    (hpart : ∀ p, part = some p → isAsciiLowerCh p = true) :
    ∀ c ∈ canonicalControl f1 f2 num enh part, 40 ≤ c.toNat := by
  intro c hc
  unfold canonicalControl at hc
  have hdig : ∀ d : Char, isAsciiDigitCh d = true → 40 ≤ d.toNat := by
    intro d hd
    have := (by simpa [isAsciiDigitCh] using hd : 48 ≤ d.toNat ∧ d.toNat ≤ 57)
    omega
  simp only [List.mem_cons, List.mem_append] at hc
  rcases hc with ((rfl | rfl | rfl | hc) | hc) | hc
  · have := isUpper_bounds hf1
    omega
  · have := isUpper_bounds hf2
    omega
  · decide
  · exact hdig c (hnum c hc)
  · cases henh' : enh with
    | none =>
      rw [henh'] at hc
      simp at hc
    | some e =>
      rw [henh'] at hc
      simp only [List.mem_cons, List.mem_append, List.mem_singleton] at hc
      rcases hc with rfl | hc | rfl | hf
      · decide
      · exact hdig c (henh e henh' c hc)
      · decide
      · simp at hf
  · cases hpart' : part with
    | none =>
      rw [hpart'] at hc
      simp at hc
    | some p0 =>
      rw [hpart'] at hc
      simp only [List.mem_cons, List.not_mem_nil, or_false] at hc
      rcases hc with rfl | hce
      · decide
      · have := isLower_bounds (hpart p0 hpart')
        rw [hce]
        omega

/-- `matchControlAt` on an explicit four-character head, with the guard
exposed (the definition's match reduces definitionally on this shape). -/
theorem matchControlAt_cons (pw : Bool) (c1 c2 d1 : Char) (rest : Str) :
    matchControlAt pw (c1 :: c2 :: '-' :: d1 :: rest)
      = if pw || !(isAsciiLetterCh c1 && isAsciiLetterCh c2 && isAsciiDigitCh d1) then none
        else
          let numRest : Str × Str :=
            match rest with
            | d2 :: r2 => if isAsciiDigitCh d2 then ([d1, d2], r2) else ([d1], rest)
            | [] => ([d1], [])
          let enhRest : Option Str × Str :=
            match numRest.2 with
            | '(' :: r3 =>
              match r3.span isAsciiDigitCh with
              | (ds, ')' :: r4) => if ds.isEmpty then (none, numRest.2) else (some ds, r4)
              | _ => (none, numRest.2)
            | _ => (none, numRest.2)
          let part : Option Char :=
            match enhRest.2 with
            | '.' :: p :: _ => if isAsciiLetterCh p then some p else none
            | _ => none
          some { fam1 := c1, fam2 := c2, number := numRest.1, enh := enhRest.1,
                 part := part } := rfl

/-- `CONTROL_PATTERN` matches a canonical control identifier anchored at its
start, recovering exactly its components. -/
theorem matchControlAt_canonical {f1 f2 : Char} {num : Str} {enh : Option Str}
    {part : Option Char}
    (hf1 : isAsciiLetterCh f1 = true) (hf2 : isAsciiLetterCh f2 = true)
    (hnum : ∀ c ∈ num, isAsciiDigitCh c = true)
    (hlen : num.length = 1 ∨ num.length = 2)
    (henh : ∀ e, enh = some e → e ≠ [] ∧ ∀ c ∈ e, isAsciiDigitCh c = true)
    (hpartL : ∀ p, part = some p → isAsciiLetterCh p = true) :
    matchControlAt false (canonicalControl f1 f2 num enh part)
      = some ⟨f1, f2, num, enh, part⟩ := by
  rcases hlen with h1 | h2
  · obtain ⟨d1, rfl⟩ := List.length_eq_one.mp h1
    have hd1 : isAsciiDigitCh d1 = true := hnum d1 (by simp)
    cases enh with
    | none =>
      cases part with
      | none =>
        show matchControlAt false (f1 :: f2 :: '-' :: d1 :: []) = _
        rw [matchControlAt_cons, if_neg (by rw [hf1, hf2, hd1]; decide)]
      | some p =>
        have hpL : isAsciiLetterCh p = true := hpartL p rfl
        show matchControlAt false (f1 :: f2 :: '-' :: d1 :: ['.', p]) = _
        rw [matchControlAt_cons, if_neg (by rw [hf1, hf2, hd1]; decide)]
        simp [hpL, show isAsciiDigitCh '.' = false from rfl]
    | some e =>
      obtain ⟨hene, hed⟩ := henh e rfl
      obtain ⟨ec, es, rfl⟩ := List.exists_cons_of_ne_nil hene
      cases part with
      | none =>
        have htake : List.takeWhile isAsciiDigitCh (ec :: (es ++ [')'])) = ec :: es := by
          show List.takeWhile isAsciiDigitCh ((ec :: es) ++ [')']) = _
          exact takeWhile_append_of isAsciiDigitCh (ec :: es) _ hed rfl
        have hdrop : List.dropWhile isAsciiDigitCh (ec :: (es ++ [')'])) = [')'] := by
          show List.dropWhile isAsciiDigitCh ((ec :: es) ++ [')']) = _
          exact dropWhile_append_of isAsciiDigitCh (ec :: es) _ hed rfl
        show matchControlAt false
          (f1 :: f2 :: '-' :: d1 :: '(' :: (((ec :: es) ++ [')']) ++ [])) = _
        rw [matchControlAt_cons, if_neg (by rw [hf1, hf2, hd1]; decide)]
        simp [htake, hdrop, show isAsciiDigitCh '(' = false from rfl]
      | some p =>
        have hpL : isAsciiLetterCh p = true := hpartL p rfl
        have htake : List.takeWhile isAsciiDigitCh (ec :: (es ++ [')', '.', p]))
            = ec :: es := by
          show List.takeWhile isAsciiDigitCh ((ec :: es) ++ [')', '.', p]) = _
          exact takeWhile_append_of isAsciiDigitCh (ec :: es) _ hed rfl
        have hdrop : List.dropWhile isAsciiDigitCh (ec :: (es ++ [')', '.', p]))
            = [')', '.', p] := by
          show List.dropWhile isAsciiDigitCh ((ec :: es) ++ [')', '.', p]) = _
          exact dropWhile_append_of isAsciiDigitCh (ec :: es) _ hed rfl
        show matchControlAt false
          (f1 :: f2 :: '-' :: d1 :: '(' :: (((ec :: es) ++ [')']) ++ ['.', p])) = _
        rw [matchControlAt_cons, if_neg (by rw [hf1, hf2, hd1]; decide)]
        simp [htake, hdrop, hpL, show isAsciiDigitCh '(' = false from rfl]
  · obtain ⟨d1, d2, rfl⟩ := List.length_eq_two.mp h2
    have hd1 : isAsciiDigitCh d1 = true := hnum d1 (by simp)
    have hd2 : isAsciiDigitCh d2 = true := hnum d2 (by simp)
    cases enh with
    | none =>
      cases part with
      | none =>
        show matchControlAt false (f1 :: f2 :: '-' :: d1 :: d2 :: []) = _
        rw [matchControlAt_cons, if_neg (by rw [hf1, hf2, hd1]; decide)]
        simp [hd2]
      | some p =>
        have hpL : isAsciiLetterCh p = true := hpartL p rfl
        show matchControlAt false (f1 :: f2 :: '-' :: d1 :: d2 :: ['.', p]) = _
        rw [matchControlAt_cons, if_neg (by rw [hf1, hf2, hd1]; decide)]
        simp [hd2, hpL, show isAsciiDigitCh '.' = false from rfl]
    | some e =>
      obtain ⟨hene, hed⟩ := henh e rfl
      obtain ⟨ec, es, rfl⟩ := List.exists_cons_of_ne_nil hene
      cases part with
      | none =>
        have htake : List.takeWhile isAsciiDigitCh (ec :: (es ++ [')'])) = ec :: es := by
          show List.takeWhile isAsciiDigitCh ((ec :: es) ++ [')']) = _
          exact takeWhile_append_of isAsciiDigitCh (ec :: es) _ hed rfl
        have hdrop : List.dropWhile isAsciiDigitCh (ec :: (es ++ [')'])) = [')'] := by
          show List.dropWhile isAsciiDigitCh ((ec :: es) ++ [')']) = _
          exact dropWhile_append_of isAsciiDigitCh (ec :: es) _ hed rfl
        show matchControlAt false
          (f1 :: f2 :: '-' :: d1 :: d2 :: '(' :: (((ec :: es) ++ [')']) ++ [])) = _
        rw [matchControlAt_cons, if_neg (by rw [hf1, hf2, hd1]; decide)]
        simp [hd2, htake, hdrop, show isAsciiDigitCh '(' = false from rfl]
      | some p =>
        have hpL : isAsciiLetterCh p = true := hpartL p rfl
        have htake : List.takeWhile isAsciiDigitCh (ec :: (es ++ [')', '.', p]))
            = ec :: es := by
          show List.takeWhile isAsciiDigitCh ((ec :: es) ++ [')', '.', p]) = _
          exact takeWhile_append_of isAsciiDigitCh (ec :: es) _ hed rfl
        have hdrop : List.dropWhile isAsciiDigitCh (ec :: (es ++ [')', '.', p]))
            = [')', '.', p] := by
          show List.dropWhile isAsciiDigitCh ((ec :: es) ++ [')', '.', p]) = _
          exact dropWhile_append_of isAsciiDigitCh (ec :: es) _ hed rfl
        show matchControlAt false
          (f1 :: f2 :: '-' :: d1 :: d2 :: '(' :: (((ec :: es) ++ [')']) ++ ['.', p])) = _
        rw [matchControlAt_cons, if_neg (by rw [hf1, hf2, hd1]; decide)]
        simp [hd2, htake, hdrop, hpL, show isAsciiDigitCh '(' = false from rfl]

/-- One scan step of `finditer` when the pattern matches at the current
position: emit the match and resume right after it. -/
theorem scanCtrlLine_cons_some (fuel : Nat) (pw : Bool) (pos : Nat) (c : Char) (rest : Str)
    (m : CtrlMatch) (h : matchControlAt pw (c :: rest) = some m) :
    scanCtrlLine (fuel + 1) pw pos (c :: rest)
      = (pos, m) :: scanCtrlLine fuel (m.part.isSome || m.enh.isNone)
          (pos + ctrlMatchLen m) (List.drop (ctrlMatchLen m - 1) rest) := by
  simp [scanCtrlLine, h]

/-- A line that is exactly one pattern match yields exactly one `finditer`
hit, at column 0. -/
theorem scanCtrlLine_exact (s : Str) (m : CtrlMatch)
    (hne : s ≠ [])
    (h : matchControlAt false s = some m)
    (hlen : s.length = ctrlMatchLen m) :
    scanCtrlLine s.length false 0 s = [(0, m)] := by
  obtain ⟨c, rest, rfl⟩ := List.exists_cons_of_ne_nil hne
  rw [List.length_cons, scanCtrlLine_cons_some rest.length false 0 c rest m h]
  have hd : ctrlMatchLen m - 1 = rest.length := by
    rw [List.length_cons] at hlen
    omega
  rw [hd, List.drop_length, scanCtrlLine_nil]

/-- `findall`-level round trip: a line that is a canonical control identifier
produces exactly one match, whose groups are the identifier's components. -/
theorem findControlsLine_canonical {f1 f2 : Char} {num : Str} {enh : Option Str}
    {part : Option Char}
    (hf1 : isAsciiLetterCh f1 = true) (hf2 : isAsciiLetterCh f2 = true)
    (hnum : ∀ c ∈ num, isAsciiDigitCh c = true)
    (hlen : num.length = 1 ∨ num.length = 2)
    (henh : ∀ e, enh = some e → e ≠ [] ∧ ∀ c ∈ e, isAsciiDigitCh c = true)
    (hpartL : ∀ p, part = some p → isAsciiLetterCh p = true) :
    findControlsLine (canonicalControl f1 f2 num enh part)
      = [(0, ⟨f1, f2, num, enh, part⟩)] := by
  exact scanCtrlLine_exact _ _ (by unfold canonicalControl; exact List.cons_ne_nil _ _)
    (matchControlAt_canonical hf1 hf2 hnum hlen henh hpartL)
    (canonical_length f1 f2 num enh part)

/-- Building the record from the canonical match reproduces every field of the
expected decomposition; the upper-casing and lower-casing in the constructor
are the identity on an already-canonical identifier. -/
theorem mkControlRef_canonical {f1 f2 : Char} {num : Str} {enh : Option Str}
    {part : Option Char} (docName tool : Str)
    (hf1 : isAsciiUpperCh f1 = true) (hf2 : isAsciiUpperCh f2 = true)
    (hnum : ∀ c ∈ num, isAsciiDigitCh c = true)
    (henh : ∀ e, enh = some e → ∀ c ∈ e, isAsciiDigitCh c = true)
    (hpart : ∀ p, part = some p → isAsciiLowerCh p = true) :
    mkControlRef docName tool 1 (canonicalControl f1 f2 num enh part) 0
        ⟨f1, f2, num, enh, part⟩
      = { control_id := canonicalControl f1 f2 num enh part
          control_family := [f1, f2]
          control_family_name := familyName [f1, f2]
          base_control := f1 :: f2 :: '-' :: num
          has_enhancement := enh.isSome
          enhancement_number := enh
          source_document := docName
          conversion_tool := tool
          line := 1
          column := 0
          context_snippet := canonicalControl f1 f2 num enh part } := by
  have hb := canonical_char_bound hf1 hf2 hnum henh hpart
  have hctx : trimChars (((canonicalControl f1 f2 num enh part).take
      (min (canonicalControl f1 f2 num enh part).length
        (0 + ctrlMatchLen ⟨f1, f2, num, enh, part⟩ + 100))).drop (0 - 50))
      = canonicalControl f1 f2 num enh part := by
    rw [Nat.zero_sub, List.drop_zero,
      Nat.min_eq_left (by rw [canonical_length]; omega), List.take_length]
    exact trimChars_eq_self (fun c hc => isSpaceCh_eq_false_of_bounds (hb c hc))
  simp only [mkControlRef, ControlRef.mk.injEq, asciiUpperCh_eq_self hf1,
    asciiUpperCh_eq_self hf2]
  refine ⟨?_, trivial, trivial, rfl, trivial, trivial, trivial, trivial, trivial, trivial,
    hctx⟩
  cases part with
  | none => cases enh <;> simp [canonicalControl]
  | some p =>
    cases enh <;> simp [canonicalControl, asciiLowerCh_eq_self (hpart p rfl)]

/-- C6: for every input string that is a canonical control identifier
`FF-N[(E)][.p]` (two upper-case letters, hyphen, 1-2 digit number, optional
parenthesized non-empty enhancement digit string, optional dot plus lower-case
part letter), `extract_controls_from_file` emits exactly one record whose
`control_family`, `base_control`, `has_enhancement` and `enhancement_number`
fields decompose the string exactly, and whose `control_id` (which carries the
part letter) equals the input string — an exact round trip. -/
theorem C6_canonical_roundtrip {f1 f2 : Char} {num : Str} {enh : Option Str}
    {part : Option Char} (docName tool : Str)
    (hf1 : isAsciiUpperCh f1 = true) (hf2 : isAsciiUpperCh f2 = true)
    (hnum : ∀ c ∈ num, isAsciiDigitCh c = true)
    (hlen : num.length = 1 ∨ num.length = 2)
    (henh : ∀ e, enh = some e → e ≠ [] ∧ ∀ c ∈ e, isAsciiDigitCh c = true)
    (hpart : ∀ p, part = some p → isAsciiLowerCh p = true) :
    extract_controls_from_file docName (some (canonicalControl f1 f2 num enh part)) tool
      = [{ control_id := canonicalControl f1 f2 num enh part
           control_family := [f1, f2]
           control_family_name := familyName [f1, f2]
           base_control := f1 :: f2 :: '-' :: num
           has_enhancement := enh.isSome
           enhancement_number := enh
           source_document := docName
           conversion_tool := tool
           line := 1
           column := 0
           context_snippet := canonicalControl f1 f2 num enh part }] := by
  have hb := canonical_char_bound hf1 hf2 hnum (fun e he => (henh e he).2) hpart
  show (List.enumFrom 1 (splitNl (canonicalControl f1 f2 num enh part))).flatMap
      (fun p => List.map (fun q => mkControlRef docName tool p.1 p.2 q.1 q.2)
        (findControlsLine p.2)) = _
  rw [splitNl_single _ (fun c hc => ne_newline_of_bounds (hb c hc))]
  show (findControlsLine (canonicalControl f1 f2 num enh part)).map
      (fun q => mkControlRef docName tool 1 (canonicalControl f1 f2 num enh part) q.1 q.2)
      ++ [] = _
  rw [List.append_nil,
    findControlsLine_canonical (letter_of_upper hf1) (letter_of_upper hf2) hnum hlen henh
      (fun p hp => letter_of_lower (hpart p hp)),
    List.map_cons, List.map_nil,
    mkControlRef_canonical docName tool hf1 hf2 hnum (fun e he => (henh e he).2) hpart]

/-- C6 witness: extracting from the canonical identifier `AC-2(1).a` yields
exactly one record that round-trips every component. -/
theorem C6_canonical_roundtrip_witness :
    extract_controls_from_file (str "doc.md") (some (str "AC-2(1).a")) (str "pandoc")
      = [{ control_id := str "AC-2(1).a"
           control_family := str "AC"
           control_family_name := str "Access Control"
           base_control := str "AC-2"
           has_enhancement := true
           enhancement_number := some (str "1")
           source_document := str "doc.md"
           conversion_tool := str "pandoc"
           line := 1
           column := 0
           context_snippet := str "AC-2(1).a" }] :=
  @C6_canonical_roundtrip 'A' 'C' ['2'] (some ['1']) (some 'a')
    (str "doc.md") (str "pandoc") (by decide) (by decide) (by decide)
    (Or.inl (by decide))
    (fun e he => by cases he; exact ⟨by decide, by decide⟩)
    (fun p hp => by cases hp; decide)

end LegacyDocs
